import Mathlib

namespace DiscordState

/-!
Shallow embedding of the client-side state engine in `discord/state.py`:
the chunk-request manager (`ChunkRequest`, `process_chunk_requests`,
`query_members`), the entity store (`_add_private_channel`,
`_get_private_channel`, `_remove_guild`, `parse_guild_delete`, message ring
buffer), the readiness coordinator (`_guild_needs_chunking`, `_delay_ready`)
and the member/scheduled-event handlers.  Python dicts are modelled as
association lists in insertion order (keys unique), `OrderedDict` likewise
with explicit reordering, async waits as explicit schedules of delivered
chunk pages, and futures as a global id-indexed table.
-/

/-- Association-list lookup, first match wins (Python dict access). -/
def lookupA {α β : Type} [DecidableEq α] : List (α × β) → α → Option β
  | [], _ => none
  | (k, v) :: rest, a => if k = a then some v else lookupA rest a

/-- Python dict assignment `d[k] = v`: update the value in place when the key
exists (keeping its position), otherwise append at the end (insertion order,
as in Python 3.7+ dicts and `OrderedDict`). -/
def aInsert {α β : Type} [DecidableEq α] (l : List (α × β)) (k : α) (v : β) :
    List (α × β) :=
  if l.any (fun p => p.1 = k) then
    l.map (fun p => if p.1 = k then (k, v) else p)
  else
    l ++ [(k, v)]

/-- Python dict `d.pop(k, None)`: remove the key if present. -/
def aErase {α β : Type} [DecidableEq α] (l : List (α × β)) (k : α) :
    List (α × β) :=
  l.filter (fun p => ¬ p.1 = k)

/-- Keys of an association list, in order. -/
def aKeys {α β : Type} (l : List (α × β)) : List α := l.map Prod.fst

/-! ## Data model -/

/-- A guild member as seen by the chunking machinery: identity, the
`joined_at` timestamp (nullable) and an abstract payload standing for the
remaining per-guild data (roles, presence, …) so that distinct member
records for the same id can be told apart. -/
structure Member where
  id : Nat
  joined_at : Option Nat
  payload : Nat
deriving DecidableEq, Repr

/-- A custom emoji: identity plus owning guild (`emoji.guild`). -/
structure Emoji where
  id : Nat
  guild_id : Nat
deriving DecidableEq, Repr

/-- A guild sticker: identity plus owning guild. -/
structure Sticker where
  id : Nat
  guild_id : Nat
deriving DecidableEq, Repr

/-- A scheduled event: identity plus its `subscriber_count` counter. -/
structure ScheduledEvent where
  id : Nat
  subscriber_count : Nat
deriving DecidableEq, Repr

/-- A guild: the fields of `discord.Guild` that `state.py` reads or writes
in the handlers under verification.  `members` and `scheduled_events` are
id-keyed dicts, `member_count` is the nullable approximate count
(`guild._member_count`), `unavailable` is the nullable tri-state flag. -/
structure Guild where
  id : Nat
  members : List (Nat × Member)
  scheduled_events : List (Nat × ScheduledEvent)
  emojis : List Emoji
  stickers : List Sticker
  chunked : Bool
  large : Bool
  unavailable : Option Bool
  member_count : Option Int
deriving DecidableEq, Repr

/-- `Guild.get_member(user_id)`: plain dict lookup. -/
def Guild.get_member (g : Guild) (user_id : Nat) : Option Member :=
  lookupA g.members user_id

/-- `Guild._add_member(member)`: `self._members[member.id] = member`. -/
def Guild.add_member (g : Guild) (m : Member) : Guild :=
  { g with members := aInsert g.members m.id m }

/-- `Guild.get_scheduled_event(event_id)`: dict lookup. -/
def Guild.get_scheduled_event (g : Guild) (event_id : Nat) :
    Option ScheduledEvent :=
  lookupA g.scheduled_events event_id

/-- `Guild._add_scheduled_event(event)`: keyed insert. -/
def Guild.add_scheduled_event (g : Guild) (ev : ScheduledEvent) : Guild :=
  { g with scheduled_events := aInsert g.scheduled_events ev.id ev }

/-- A cached message: identity plus the id of the guild it belongs to
(`none` for direct messages; `msg.guild != guild` compares by id). -/
structure Message where
  id : Nat
  guild_id : Option Nat
deriving DecidableEq, Repr

/-- The message ring buffer `deque(maxlen=…)`: oldest first, `cap = none`
models `maxlen=None` (unbounded). -/
structure MsgDeque where
  cap : Option Nat
  items : List Message
deriving DecidableEq, Repr

/-- A private channel: a DM channel with its (possibly unknown) recipient
user id, or a group channel. -/
inductive PrivateChannel where
  | dm (id : Nat) (recipient : Option Nat)
  | group (id : Nat) (tag : Nat)
deriving DecidableEq, Repr

/-- `channel.id` for a private channel. -/
def PrivateChannel.id : PrivateChannel → Nat
  | .dm i _ => i
  | .group i _ => i

/-- A user in the global user map: id plus discriminator tag. -/
structure User where
  id : Nat
  discriminator : String
deriving DecidableEq, Repr

/-- Correlation key of `ConnectionState._chunk_requests` (`int | str`):
guild id for the whole-guild backfill path, nonce string for ad-hoc
queries. -/
inductive ChunkKey where
  | gid (g : Nat)
  | tok (s : String)
deriving DecidableEq, Repr

/-- `ChunkRequest`: guild id, `cache` flag, correlation `nonce`, member
buffer and registered waiter futures (by future id in a global table). -/
structure ChunkRequest where
  guild_id : Nat
  cache : Bool
  nonce : String
  buffer : List Member
  waiters : List Nat
deriving DecidableEq, Repr

/-- `ConnectionState`: the fields of the connection-state object the
verified handlers touch.  `futures` is the global table of waiter futures
(`none` = pending, `some ms` = resolved with `ms`); `next_future` supplies
fresh future ids; `warnings` counts `_log.warning` calls. -/
structure ConnectionState where
  max_messages : Option Int
  member_cache_joined : Bool
  chunk_guilds : Bool
  intents_presences : Bool
  users : List (Nat × User)
  guilds : List (Nat × Guild)
  emojis : List (Nat × Emoji)
  stickers : List (Nat × Sticker)
  private_channels : List (Nat × PrivateChannel)
  private_channels_by_user : List (Nat × PrivateChannel)
  messages : Option MsgDeque
  chunk_requests : List (ChunkKey × ChunkRequest)
  futures : List (Nat × Option (List Member))
  next_future : Nat
  warnings : Nat
deriving DecidableEq, Repr

/-! ## Chunk-request manager -/

/-- Body of the member-merge loop in `ChunkRequest.add_members`: cache the
page's member unless an already-cached member for the same id has a
non-null `joined_at` (`if existing is None or existing.joined_at is None:
guild._add_member(member)`). -/
def chunk_merge_member (g : Guild) (m : Member) : Guild :=
  match g.get_member m.id with
  | none => g.add_member m
  | some existing =>
      if existing.joined_at = none then g.add_member m else g

/-- `ChunkRequest.add_members(members)` acting on the request and the guild
map (the resolver is `ConnectionState._get_guild`): always extend the
buffer; when `cache` is set and the guild resolves, merge each member via
`chunk_merge_member`. -/
def ChunkRequest.add_members (r : ChunkRequest) (guilds : List (Nat × Guild))
    (members : List Member) : ChunkRequest × List (Nat × Guild) :=
  let r' := { r with buffer := r.buffer ++ members }
  if r.cache then
    match lookupA guilds r.guild_id with
    | none => (r', guilds)
    | some g =>
        (r', aInsert guilds r.guild_id (members.foldl chunk_merge_member g))
  else
    (r', guilds)

/-- `ChunkRequest.done()`: set the buffer as the result of every still-pending
waiter future of the request. -/
def resolveFutures (futs : List (Nat × Option (List Member)))
    (waiters : List Nat) (res : List Member) :
    List (Nat × Option (List Member)) :=
  futs.map (fun p =>
    if p.1 ∈ waiters ∧ p.2 = none then (p.1, some res) else p)

/-- Whether a chunk page `(guild_id, nonce)` is attributed to a request:
`request.guild_id == guild_id and request.nonce == nonce` (the page nonce is
nullable; a request's nonce never is, so a page without a nonce matches no
request). -/
def reqMatches (r : ChunkRequest) (guild_id : Nat) (nonce : Option String) :
    Bool :=
  decide (r.guild_id = guild_id) && decide (some r.nonce = nonce)

/-- One iteration of the loop in `ConnectionState.process_chunk_requests`:
thread the surviving entries, the guild map and the futures table through
one `(key, request)` item.  A matching request buffers the page (and merges
into the guild cache); when the page is final it additionally resolves its
waiters and is dropped from the map (Python collects the key in `removed`
and deletes it after the loop, which preserves the order of the rest). -/
def pcrStep (guild_id : Nat) (nonce : Option String) (members : List Member)
    (complete : Bool)
    (acc : List (ChunkKey × ChunkRequest) × List (Nat × Guild) ×
      List (Nat × Option (List Member)))
    (e : ChunkKey × ChunkRequest) :
    List (ChunkKey × ChunkRequest) × List (Nat × Guild) ×
      List (Nat × Option (List Member)) :=
  let (es, gs, fs) := acc
  let (k, r) := e
  if reqMatches r guild_id nonce then
    let (r', gs') := r.add_members gs members
    if complete then
      (es, gs', resolveFutures fs r'.waiters r'.buffer)
    else
      (es ++ [(k, r')], gs', fs)
  else
    (es ++ [(k, r)], gs, fs)

/-- `ConnectionState.process_chunk_requests(guild_id, nonce, members,
complete)`. -/
def ConnectionState.process_chunk_requests (st : ConnectionState)
    (guild_id : Nat) (nonce : Option String) (members : List Member)
    (complete : Bool) : ConnectionState :=
  let (es, gs, fs) := st.chunk_requests.foldl
    (pcrStep guild_id nonce members complete) ([], st.guilds, st.futures)
  { st with chunk_requests := es, guilds := gs, futures := fs }

/-- A `GUILD_MEMBERS_CHUNK` page as fed to `process_chunk_requests`. -/
structure ChunkPage where
  guild_id : Nat
  nonce : Option String
  members : List Member
  complete : Bool
deriving DecidableEq, Repr

/-- Update the request stored under a key in place (Python mutates the
`ChunkRequest` object; the map keeps pointing at it while it is still
registered). -/
def mapReqAt (l : List (ChunkKey × ChunkRequest)) (k : ChunkKey)
    (f : ChunkRequest → ChunkRequest) : List (ChunkKey × ChunkRequest) :=
  l.map (fun p => if p.1 = k then (p.1, f p.2) else p)

/-- `ConnectionState.query_members` for a fresh nonce, with the chunk pages
delivered (and processed by the dispatch loop) during the 30-second wait
made explicit as `pages`.  Steps of the source: register the request under
its nonce; `request.wait()` creates a future and appends it to the waiter
list; the pages are handled by `process_chunk_requests`; if the future was
resolved the buffer is returned, otherwise `asyncio.wait_for` raises
`TimeoutError`, which is logged (`_log.warning`) and re-raised; in both
cases `wait`'s `finally` removes the future from the request object's
waiter list. -/
def ConnectionState.query_members_run (st : ConnectionState) (guild_id : Nat)
    (nonce : String) (cache : Bool) (pages : List ChunkPage) :
    ConnectionState × Except Unit (List Member) :=
  let req : ChunkRequest :=
    { guild_id := guild_id, cache := cache, nonce := nonce,
      buffer := [], waiters := [] }
  let st₁ := { st with
    chunk_requests := aInsert st.chunk_requests (.tok nonce) req }
  let fid := st₁.next_future
  let st₂ := { st₁ with
    futures := st₁.futures ++ [(fid, none)],
    next_future := fid + 1,
    chunk_requests := mapReqAt st₁.chunk_requests (.tok nonce)
      (fun r => { r with waiters := r.waiters ++ [fid] }) }
  let st₃ := pages.foldl
    (fun s p => s.process_chunk_requests p.guild_id p.nonce p.members
      p.complete) st₂
  let dropWaiter : ConnectionState → ConnectionState := fun s =>
    let cr := mapReqAt s.chunk_requests (.tok nonce)
      (fun r => { r with waiters := r.waiters.erase fid })
    { s with chunk_requests := cr }
  match lookupA st₃.futures fid with
  | some (some ms) => (dropWaiter st₃, .ok ms)
  | _ =>
      ({ dropWaiter st₃ with warnings := st₃.warnings + 1 }, .error ())

/-! ## Lemmas about the chunk-request machinery -/

/-- The surviving chunk-request entries of one `process_chunk_requests`
call, as a filterMap over the previous entries. -/
def pcrEntries (guild_id : Nat) (nonce : Option String) (ms : List Member)
    (c : Bool) (entries : List (ChunkKey × ChunkRequest)) :
    List (ChunkKey × ChunkRequest) :=
  entries.filterMap (fun e =>
    if reqMatches e.2 guild_id nonce then
      if c then none
      else some (e.1, { e.2 with buffer := e.2.buffer ++ ms })
    else some e)

/-- The guild map after one `process_chunk_requests` call. -/
def pcrGuilds (guild_id : Nat) (nonce : Option String) (ms : List Member)
    (entries : List (ChunkKey × ChunkRequest)) (gs0 : List (Nat × Guild)) :
    List (Nat × Guild) :=
  entries.foldl (fun gs e =>
    if reqMatches e.2 guild_id nonce then (e.2.add_members gs ms).2 else gs)
    gs0

/-- The futures table after one `process_chunk_requests` call. -/
def pcrFutures (guild_id : Nat) (nonce : Option String) (ms : List Member)
    (c : Bool) (entries : List (ChunkKey × ChunkRequest))
    (fs0 : List (Nat × Option (List Member))) :
    List (Nat × Option (List Member)) :=
  entries.foldl (fun fs e =>
    if reqMatches e.2 guild_id nonce && c then
      resolveFutures fs e.2.waiters (e.2.buffer ++ ms)
    else fs) fs0

/-! ## Construction (`ConnectionState.__init__` / `clear`) -/

/-- The `max_messages` handling in `ConnectionState.__init__`:
`options.get("max_messages", 1000)` (outer `none` = option absent, inner
`none` = an explicit Python `None`), then
`if self.max_messages is not None and self.max_messages <= 0:
self.max_messages = 1000`. -/
def initMaxMessages (opt : Option (Option Int)) : Option Int :=
  let m := opt.getD (some 1000)
  match m with
  | none => none
  | some v => if v ≤ 0 then some 1000 else some v

/-- The `_messages` setup in `ConnectionState.clear`: a
`deque(maxlen=self.max_messages)` when `max_messages` is not `None`,
otherwise no message cache at all. -/
def initMessages (mm : Option Int) : Option MsgDeque :=
  match mm with
  | some n => some { cap := some n.toNat, items := [] }
  | none => none

/-! ## Private-channel LRU -/

/-- `OrderedDict` assignment `od[k] = v`: an existing key keeps its
position and gets the new value; a fresh key is appended at the
most-recently-used end. -/
def odSet (l : List (Nat × PrivateChannel)) (k : Nat) (v : PrivateChannel) :
    List (Nat × PrivateChannel) :=
  aInsert l k v

/-- `channel.recipient` (the user id) for a private channel; group channels
have none. -/
def PrivateChannel.recipient : PrivateChannel → Option Nat
  | .dm _ r => r
  | .group _ _ => none

/-- The overflow branch of `_add_private_channel`: `popitem(last=False)`
drops the least-recently-used entry and, when it is a DM channel with a
known recipient, removes that recipient from the by-user index. -/
def evictOldest (pcs : List (Nat × PrivateChannel))
    (byUser : List (Nat × PrivateChannel)) :
    List (Nat × PrivateChannel) × List (Nat × PrivateChannel) :=
  match pcs with
  | [] => ([], byUser)
  | (_, to_remove) :: rest =>
      match to_remove with
      | .dm _ (some rec_id) => (rest, aErase byUser rec_id)
      | _ => (rest, byUser)

/-- The final step of `_add_private_channel`: a DM channel with a known
recipient is indexed under its recipient's user id. -/
def indexRecipient (byUser : List (Nat × PrivateChannel))
    (channel : PrivateChannel) : List (Nat × PrivateChannel) :=
  match channel with
  | .dm _ (some rec_id) => aInsert byUser rec_id channel
  | _ => byUser

/-- `ConnectionState._add_private_channel(channel)`: insert into the
ordered map; on overflow past 128 evict the least-recently-used entry
(`evictOldest`); finally index a DM channel by its recipient. -/
def ConnectionState.add_private_channel (st : ConnectionState)
    (channel : PrivateChannel) : ConnectionState :=
  let channel_id := channel.id
  let pcs := odSet st.private_channels channel_id channel
  let (pcs, byUser) :=
    if 128 < pcs.length then evictOldest pcs st.private_channels_by_user
    else (pcs, st.private_channels_by_user)
  let byUser := indexRecipient byUser channel
  { st with private_channels := pcs, private_channels_by_user := byUser }

/-- `ConnectionState._get_private_channel(channel_id)`: a hit calls
`move_to_end` (read promotes to most-recently-used) and returns the value;
a miss returns `None` and leaves the map untouched. -/
def ConnectionState.get_private_channel (st : ConnectionState)
    (channel_id : Nat) : Option PrivateChannel × ConnectionState :=
  match lookupA st.private_channels channel_id with
  | none => (none, st)
  | some value =>
      let pcs := (st.private_channels.filter (fun p => ¬ p.1 = channel_id))
        ++ [(channel_id, value)]
      (some value, { st with private_channels := pcs })

/-! ## Guild removal cascade -/

/-- `ConnectionState._remove_guild(guild)`: pop the guild, then pop each of
its emojis and stickers from the global maps. -/
def ConnectionState.remove_guild (st : ConnectionState) (guild : Guild) :
    ConnectionState :=
  let guilds := aErase st.guilds guild.id
  let emojis := guild.emojis.foldl (fun m e => aErase m e.id) st.emojis
  let stickers := guild.stickers.foldl (fun m s => aErase m s.id) st.stickers
  { st with guilds := guilds, emojis := emojis, stickers := stickers }

/-- `ConnectionState.parse_guild_delete(data)`: unknown guilds are dropped;
`unavailable: true` only flags the guild; otherwise the message ring buffer
is rebuilt without the guild's messages (same `maxlen`, order preserved)
and the guild is removed with its cascade. -/
def ConnectionState.parse_guild_delete (st : ConnectionState) (gid : Nat)
    (unavailable : Bool) : ConnectionState :=
  match lookupA st.guilds gid with
  | none => st
  | some guild =>
      if unavailable then
        { st with guilds :=
            aInsert st.guilds gid { guild with unavailable := some true } }
      else
        let msgs := st.messages.map (fun d =>
          { cap := st.max_messages.map Int.toNat,
            items := d.items.filter (fun m => ¬ m.guild_id = some gid) })
        ConnectionState.remove_guild { st with messages := msgs } guild

/-! ## Readiness coordinator -/

/-- `ConnectionState._guild_needs_chunking(guild)`. -/
def ConnectionState.guild_needs_chunking (st : ConnectionState) (g : Guild) :
    Bool :=
  st.chunk_guilds && !g.chunked && !(st.intents_presences && !g.large)

/-- One notification of `_delay_ready`'s event stream. -/
inductive REv where
  | guild_available (id : Nat)
  | guild_join (id : Nat)
  | chunk_start (id : Nat)
  | ready
deriving DecidableEq, Repr

/-- The work done for one guild taken off the ready queue during the
collecting loop of `_delay_ready`: guilds needing chunking start a
background chunk request and are deferred; the rest are announced
immediately (`guild.unavailable is False` selects `guild_available`). -/
def collectBlock (st : ConnectionState) (g : Guild) : List REv :=
  if st.guild_needs_chunking g then [.chunk_start g.id]
  else if g.unavailable = some false then [.guild_available g.id]
  else [.guild_join g.id]

/-- The announcement made for one deferred guild after its backfill is
drained (or its 5-second wait times out). -/
def drainBlock (g : Guild) : List REv :=
  if g.unavailable = some false then [.guild_available g.id]
  else [.guild_join g.id]

/-- The event blocks of one `_delay_ready` run over the guilds announced
before the idle timeout, one block per suspension point (each block is the
batch of notifications published between two awaits). -/
def delayReadyBlocks (st : ConnectionState) (gs : List Guild) :
    List (List REv) :=
  gs.map (collectBlock st) ++
    (gs.filter (fun g => st.guild_needs_chunking g)).map drainBlock

/-- A completed (non-cancelled) `_delay_ready` run: all blocks, then the
terminal `ready` dispatched from the `else` clause. -/
def delayReadyRun (st : ConnectionState) (gs : List Guild) : List REv :=
  (delayReadyBlocks st gs).flatten ++ [REv.ready]

/-- A cancelled `_delay_ready` run: `CancelledError` lands on one of the
awaits, so the published stream is the batch of blocks before some
suspension point and the `else` clause (hence `ready`) never runs. -/
def delayReadyCancelled (st : ConnectionState) (gs : List Guild) (j : Nat) :
    List REv :=
  ((delayReadyBlocks st gs).take j).flatten

/-! ## Member and scheduled-event handlers -/

/-- `ConnectionState.store_user(data)`: an already-cached id returns the
cached user; otherwise the user is constructed and inserted unless its
discriminator is the sentinel `"0000"`. -/
def ConnectionState.store_user (st : ConnectionState) (u : User) :
    ConnectionState :=
  match lookupA st.users u.id with
  | some _ => st
  | none =>
      if u.discriminator = "0000" then st
      else { st with users := aInsert st.users u.id u }

/-- `ConnectionState.parse_guild_member_add(data)`: unknown guild ⇒ drop;
otherwise cache the member only under the `joined` member-cache flag, and
increment the approximate member count whenever it is tracked. -/
def ConnectionState.parse_guild_member_add (st : ConnectionState)
    (gid : Nat) (member : Member) : ConnectionState :=
  match lookupA st.guilds gid with
  | none => st
  | some guild =>
      let guild :=
        if st.member_cache_joined then guild.add_member member else guild
      let guild :=
        match guild.member_count with
        | some n => { guild with member_count := some (n + 1) }
        | none => guild
      { st with guilds := aInsert st.guilds gid guild }

/-- `Guild._remove_member(member)`: drop the member's id from the member
map. -/
def Guild.remove_member (g : Guild) (m : Member) : Guild :=
  { g with members := aErase g.members m.id }

/-- `ConnectionState.parse_guild_member_remove(data)`: the user is stored
first; for a cached guild the approximate member count is decremented
whenever it is tracked, and the member is removed from the cache only if it
was cached. -/
def ConnectionState.parse_guild_member_remove (st : ConnectionState)
    (gid : Nat) (user : User) : ConnectionState :=
  let st := st.store_user user
  match lookupA st.guilds gid with
  | none => st
  | some guild =>
      let guild :=
        match guild.member_count with
        | some n => { guild with member_count := some (n - 1) }
        | none => guild
      let guild :=
        match guild.get_member user.id with
        | some m => guild.remove_member m
        | none => guild
      { st with guilds := aInsert st.guilds gid guild }

/-- `ConnectionState.parse_guild_scheduled_event_user_add(data)`: for a
cached guild, a cached member and a cached scheduled event, bump the
event's `subscriber_count` and store it back. -/
def ConnectionState.parse_guild_scheduled_event_user_add
    (st : ConnectionState) (gid user_id event_id : Nat) : ConnectionState :=
  match lookupA st.guilds gid with
  | none => st
  | some guild =>
      match guild.get_member user_id with
      | none => st
      | some _ =>
          match guild.get_scheduled_event event_id with
          | none => st
          | some ev =>
              let ev :=
                { ev with subscriber_count := ev.subscriber_count + 1 }
              { st with guilds :=
                  aInsert st.guilds gid (guild.add_scheduled_event ev) }

/-- `ConnectionState.parse_guild_scheduled_event_user_remove(data)`: the
body is identical to the user-add handler — it also *increments*
`subscriber_count`. -/
def ConnectionState.parse_guild_scheduled_event_user_remove
    (st : ConnectionState) (gid user_id event_id : Nat) : ConnectionState :=
  match lookupA st.guilds gid with
  | none => st
  | some guild =>
      match guild.get_member user_id with
      | none => st
      | some _ =>
          match guild.get_scheduled_event event_id with
          | none => st
          | some ev =>
              let ev :=
                { ev with subscriber_count := ev.subscriber_count + 1 }
              { st with guilds :=
                  aInsert st.guilds gid (guild.add_scheduled_event ev) }


/-! ## Concrete states for examples -/

/-- A cached member of the example guild. -/
def exMember : Member := { id := 42, joined_at := some 5, payload := 0 }

/-- A cached scheduled event of the example guild. -/
def exEvent : ScheduledEvent := { id := 3, subscriber_count := 2 }

/-- Example guild: chunked, small, available, with two emojis, one sticker,
one cached member and one scheduled event. -/
def exGuildA : Guild :=
  { id := 7,
    members := [(42, exMember)],
    scheduled_events := [(3, exEvent)],
    emojis := [{ id := 100, guild_id := 7 }, { id := 101, guild_id := 7 }],
    stickers := [{ id := 200, guild_id := 7 }],
    chunked := true, large := false, unavailable := some false,
    member_count := some 10 }

/-- Second example guild, owning its own emoji and sticker. -/
def exGuildB : Guild :=
  { id := 8, members := [], scheduled_events := [],
    emojis := [{ id := 102, guild_id := 8 }],
    stickers := [{ id := 201, guild_id := 8 }],
    chunked := false, large := true, unavailable := some true,
    member_count := none }

/-- A freshly constructed state with default options and empty caches. -/
def emptyState : ConnectionState :=
  { max_messages := some 1000, member_cache_joined := true,
    chunk_guilds := true, intents_presences := false,
    users := [], guilds := [], emojis := [], stickers := [],
    private_channels := [], private_channels_by_user := [],
    messages := some { cap := some 1000, items := [] },
    chunk_requests := [], futures := [], next_future := 0, warnings := 0 }

/-- The example state with both guilds and their global emoji/sticker
entries, plus four cached messages. -/
def exState : ConnectionState :=
  { emptyState with
    guilds := [(7, exGuildA), (8, exGuildB)],
    emojis := [(100, { id := 100, guild_id := 7 }),
               (101, { id := 101, guild_id := 7 }),
               (102, { id := 102, guild_id := 8 })],
    stickers := [(200, { id := 200, guild_id := 7 }),
                 (201, { id := 201, guild_id := 8 })],
    messages := some
      { cap := some 1000,
        items := [{ id := 1, guild_id := some 7 },
                  { id := 2, guild_id := some 8 },
                  { id := 3, guild_id := none },
                  { id := 4, guild_id := some 7 }] } }

/-- `n` distinct group channels keyed 0..n-1, oldest first. -/
def mkPcs (n : Nat) : List (Nat × PrivateChannel) :=
  (List.range n).map (fun i => (i, PrivateChannel.group i 0))

/-- A state whose private-channel LRU is at capacity. -/
def lruState : ConnectionState :=
  { emptyState with private_channels := mkPcs 128 }


/-- A state with two ad-hoc chunk requests for the same guild under tokens
"t1" and "t2", each with one pending waiter. -/
def qState : ConnectionState :=
  { emptyState with
    chunk_requests :=
      [(.tok "t1", { guild_id := 7, cache := false, nonce := "t1",
                     buffer := [], waiters := [0] }),
       (.tok "t2", { guild_id := 7, cache := false, nonce := "t2",
                     buffer := [], waiters := [1] })],
    futures := [(0, none), (1, none)],
    next_future := 2 }


/-- The state after the registration half of `query_members`: the request
is registered under its token and `wait` has appended one fresh pending
future to its waiter list. -/
def qmStart (st : ConnectionState) (gid : Nat) (nonce : String)
    (cache : Bool) : ConnectionState :=
  { st with
    chunk_requests := mapReqAt
      (aInsert st.chunk_requests (.tok nonce)
        { guild_id := gid, cache := cache, nonce := nonce, buffer := [],
          waiters := [] })
      (.tok nonce)
      (fun r => { r with waiters := r.waiters ++ [st.next_future] }),
    futures := st.futures ++ [(st.next_future, none)],
    next_future := st.next_future + 1 }

/-! ## Lemmas -/

theorem lookupA_append {α β : Type} [DecidableEq α]
    (l₁ l₂ : List (α × β)) (a : α) :
    lookupA (l₁ ++ l₂) a =
      (lookupA l₁ a).elim (lookupA l₂ a) some := by
  induction l₁ with
  | nil => simp [lookupA]
  | cons p rest ih =>
    by_cases h : p.1 = a <;> simp [lookupA, h, ih]

theorem lookupA_eq_none_of_not_mem {α β : Type} [DecidableEq α]
    (l : List (α × β)) (a : α) (h : a ∉ aKeys l) : lookupA l a = none := by
  induction l with
  | nil => rfl
  | cons p rest ih =>
    simp only [aKeys, List.map_cons, List.mem_cons, not_or] at h
    have hne : ¬ p.1 = a := fun hc => h.1 hc.symm
    simp only [lookupA, if_neg hne]
    exact ih h.2

theorem lookupA_erase {α β : Type} [DecidableEq α]
    (l : List (α × β)) (k a : α) :
    lookupA (aErase l k) a = if a = k then none else lookupA l a := by
  induction l with
  | nil => simp [aErase, lookupA]
  | cons p rest ih =>
    by_cases hpk : p.1 = k
    · have hstep : aErase (p :: rest) k = aErase rest k := by
        simp [aErase, List.filter, hpk]
      rw [hstep, ih]
      by_cases hak : a = k
      · simp [hak]
      · have hpa : ¬ p.1 = a := fun hc => hak ((hc.symm.trans hpk))
        simp [lookupA, hpa, hak]
    · have hstep : aErase (p :: rest) k = p :: aErase rest k := by
        simp [aErase, List.filter, hpk]
      rw [hstep]
      by_cases hpa : p.1 = a
      · have hak : ¬ a = k := fun hc => hpk (hpa.trans hc)
        simp [lookupA, hpa, hak]
      · simp [lookupA, hpa, ih]

theorem lookupA_mem {α β : Type} [DecidableEq α]
    {l : List (α × β)} {a : α} {b : β} (h : lookupA l a = some b) :
    (a, b) ∈ l := by
  induction l with
  | nil => simp [lookupA] at h
  | cons p rest ih =>
    by_cases hpa : p.1 = a
    · simp only [lookupA, if_pos hpa, Option.some.injEq] at h
      have : p = (a, b) := by
        cases p
        simp only [Prod.mk.injEq]
        exact ⟨hpa, h⟩
      exact this ▸ List.mem_cons_self _ _
    · simp only [lookupA, if_neg hpa] at h
      exact List.mem_cons_of_mem _ (ih h)

theorem exists_lookupA_of_mem_keys {α β : Type} [DecidableEq α]
    {l : List (α × β)} {a : α} (h : a ∈ aKeys l) :
    ∃ b, lookupA l a = some b := by
  induction l with
  | nil => simp [aKeys] at h
  | cons p rest ih =>
    by_cases hpa : p.1 = a
    · exact ⟨p.2, by simp [lookupA, hpa]⟩
    · simp only [aKeys, List.map_cons, List.mem_cons] at h
      rcases h with h | h
      · exact absurd h.symm hpa
      · simpa [lookupA, hpa] using ih h

theorem lookupA_eq_some_of_mem_nodup {α β : Type} [DecidableEq α]
    {l : List (α × β)} {a : α} {b : β} (hnd : (aKeys l).Nodup)
    (h : (a, b) ∈ l) : lookupA l a = some b := by
  induction l with
  | nil => simp at h
  | cons p rest ih =>
    simp only [aKeys, List.map_cons, List.nodup_cons] at hnd
    rcases List.mem_cons.mp h with h | h
    · subst h
      simp [lookupA]
    · have hpa : ¬ p.1 = a := by
        intro hc
        exact hnd.1 (hc ▸ (List.mem_map_of_mem Prod.fst h))
      simp only [lookupA, if_neg hpa]
      exact ih hnd.2 h

theorem lookupA_map_replace_ne {α β : Type} [DecidableEq α]
    (l : List (α × β)) (k : α) (v : β) (a : α) (hak : ¬ a = k) :
    lookupA (l.map (fun p => if p.1 = k then (k, v) else p)) a =
      lookupA l a := by
  induction l with
  | nil => rfl
  | cons p rest ih =>
    simp only [List.map_cons]
    by_cases hpk : p.1 = k
    · rw [if_pos hpk]
      have hka : ¬ (k : α) = a := fun hc => hak hc.symm
      have hpa : ¬ p.1 = a := fun hc => hak (hc.symm.trans hpk)
      simp only [lookupA, if_neg hka, if_neg hpa]
      exact ih
    · rw [if_neg hpk]
      simp only [lookupA]
      by_cases hpa : p.1 = a
      · simp [hpa]
      · simp only [if_neg hpa]
        exact ih

theorem lookupA_map_replace_eq {α β : Type} [DecidableEq α]
    (l : List (α × β)) (k : α) (v : β) (h : k ∈ aKeys l) :
    lookupA (l.map (fun p => if p.1 = k then (k, v) else p)) k = some v := by
  induction l with
  | nil => simp [aKeys] at h
  | cons p rest ih =>
    simp only [List.map_cons]
    by_cases hpk : p.1 = k
    · rw [if_pos hpk]
      simp [lookupA]
    · rw [if_neg hpk]
      have h' : k ∈ aKeys rest := by
        simp only [aKeys, List.map_cons, List.mem_cons] at h
        rcases h with h | h
        · exact absurd h.symm hpk
        · exact h
      simp only [lookupA, if_neg hpk]
      exact ih h'

theorem any_key_iff_mem {α β : Type} [DecidableEq α]
    (l : List (α × β)) (k : α) :
    (l.any (fun p => p.1 = k)) = true ↔ k ∈ aKeys l := by
  simp [List.any_eq_true, aKeys, List.mem_map]

theorem lookupA_aInsert {α β : Type} [DecidableEq α]
    (l : List (α × β)) (k : α) (v : β) (a : α) :
    lookupA (aInsert l k v) a = if a = k then some v else lookupA l a := by
  unfold aInsert
  by_cases hany : (l.any (fun p => p.1 = k)) = true
  · rw [if_pos hany]
    by_cases hak : a = k
    · subst hak
      rw [if_pos rfl]
      exact lookupA_map_replace_eq l a v ((any_key_iff_mem l a).mp hany)
    · rw [if_neg hak]
      exact lookupA_map_replace_ne l k v a hak
  · rw [if_neg hany, lookupA_append]
    have hk : k ∉ aKeys l := fun hc => hany ((any_key_iff_mem l k).mpr hc)
    by_cases hak : a = k
    · subst hak
      simp [lookupA_eq_none_of_not_mem l a hk, lookupA]
    · cases hl : lookupA l a with
      | none => simp [hl, lookupA, hak, Ne.symm hak]
      | some b => simp [hl, hak]

theorem length_filter_lt_of_lookupA {α β : Type} [DecidableEq α]
    {l : List (α × β)} {a : α} {v : β} (h : lookupA l a = some v) :
    (l.filter (fun p => ¬ p.1 = a)).length < l.length := by
  induction l with
  | nil => simp [lookupA] at h
  | cons p rest ih =>
    by_cases hpa : p.1 = a
    · simp only [List.filter_cons, hpa]
      have : (rest.filter (fun p => ¬ p.1 = a)).length ≤ rest.length :=
        List.length_filter_le _ _
      simp only [decide_not, decide_eq_true_eq]
      simpa [hpa] using Nat.lt_succ_of_le this
    · simp only [lookupA, if_neg hpa] at h
      simp only [List.filter_cons]
      have := ih h
      by_cases hd : (¬ p.1 = a)
      · simpa [hd] using Nat.succ_lt_succ this
      · exact absurd hpa (by simpa using hd)

theorem lookupA_foldl_aErase {α β γ : Type} [DecidableEq α]
    (f : γ → α) (xs : List γ) (m0 : List (α × β)) (a : α) :
    lookupA (xs.foldl (fun m x => aErase m (f x)) m0) a =
      if a ∈ xs.map f then none else lookupA m0 a := by
  induction xs generalizing m0 with
  | nil => simp
  | cons x rest ih =>
    simp only [List.foldl_cons, List.map_cons, List.mem_cons]
    rw [ih]
    by_cases hx : a = f x
    · simp [hx, lookupA_erase]
    · by_cases hr : a ∈ rest.map f
      · simp [hx, hr]
      · simp [hx, hr, lookupA_erase]

theorem add_members_fst (r : ChunkRequest) (gs : List (Nat × Guild))
    (ms : List Member) :
    (r.add_members gs ms).1 = { r with buffer := r.buffer ++ ms } := by
  unfold ChunkRequest.add_members
  by_cases h : r.cache
  · simp only [h, if_true]
    cases lookupA gs r.guild_id <;> simp
  · simp [h]

theorem add_members_snd_cache (r : ChunkRequest) (gs : List (Nat × Guild))
    (ms : List Member) (g : Guild) (hc : r.cache = true)
    (hg : lookupA gs r.guild_id = some g) :
    (r.add_members gs ms).2 =
      aInsert gs r.guild_id (ms.foldl chunk_merge_member g) := by
  unfold ChunkRequest.add_members
  simp [hc, hg]

theorem add_members_snd_nocache (r : ChunkRequest) (gs : List (Nat × Guild))
    (ms : List Member) (hc : r.cache = false) :
    (r.add_members gs ms).2 = gs := by
  unfold ChunkRequest.add_members
  simp [hc]

theorem add_members_snd_noguild (r : ChunkRequest) (gs : List (Nat × Guild))
    (ms : List Member) (hg : lookupA gs r.guild_id = none) :
    (r.add_members gs ms).2 = gs := by
  unfold ChunkRequest.add_members
  by_cases h : r.cache <;> simp [h, hg]

/-- The loop of `process_chunk_requests`, decomposed into its effect on the
entry list, the guild map and the futures table. -/
theorem pcr_fold (guild_id : Nat) (nonce : Option String) (ms : List Member)
    (c : Bool) (entries : List (ChunkKey × ChunkRequest))
    (es0 : List (ChunkKey × ChunkRequest)) (gs0 : List (Nat × Guild))
    (fs0 : List (Nat × Option (List Member))) :
    entries.foldl (pcrStep guild_id nonce ms c) (es0, gs0, fs0) =
      (es0 ++ pcrEntries guild_id nonce ms c entries,
       pcrGuilds guild_id nonce ms entries gs0,
       pcrFutures guild_id nonce ms c entries fs0) := by
  induction entries generalizing es0 gs0 fs0 with
  | nil => simp [pcrEntries, pcrGuilds, pcrFutures]
  | cons e rest ih =>
    simp only [List.foldl_cons, pcrEntries, List.filterMap_cons, pcrGuilds,
      pcrFutures]
    by_cases hm : reqMatches e.2 guild_id nonce
    · by_cases hc : c
      · subst hc
        have hw : (e.2.add_members gs0 ms).1.waiters = e.2.waiters := by
          rw [add_members_fst]
        have hb : (e.2.add_members gs0 ms).1.buffer = e.2.buffer ++ ms := by
          rw [add_members_fst]
        simp only [pcrStep, hm, if_pos, if_true, Bool.and_true]
        rw [ih]
        simp [pcrEntries, pcrGuilds, pcrFutures, hm, hw, hb]
      · have hcf : c = false := by simpa using hc
        subst hcf
        simp only [pcrStep, hm, if_pos, Bool.and_false, if_false,
          Bool.false_eq_true]
        rw [ih]
        have hfst := add_members_fst e.2 gs0 ms
        simp [pcrEntries, pcrGuilds, pcrFutures, hm, hfst]
    · simp only [pcrStep, hm, Bool.false_and, if_neg, Bool.false_eq_true,
        if_false]
      rw [ih]
      simp [pcrEntries, pcrGuilds, pcrFutures, hm]

/-- `process_chunk_requests` in terms of the three decomposed maps; the
remaining fields of the state are untouched. -/
theorem process_chunk_requests_eq (st : ConnectionState) (guild_id : Nat)
    (nonce : Option String) (ms : List Member) (c : Bool) :
    st.process_chunk_requests guild_id nonce ms c =
      { st with
        chunk_requests := pcrEntries guild_id nonce ms c st.chunk_requests,
        guilds := pcrGuilds guild_id nonce ms st.chunk_requests st.guilds,
        futures := pcrFutures guild_id nonce ms c st.chunk_requests
          st.futures } := by
  unfold ConnectionState.process_chunk_requests
  rw [pcr_fold]
  simp

/-- Per-key behaviour of `process_chunk_requests` on the chunk-request map
(unique keys): a matching request is dropped on the final page and
buffer-extended otherwise; a non-matching request is untouched. -/
theorem lookupA_pcrEntries (guild_id : Nat) (nonce : Option String)
    (ms : List Member) (c : Bool) (entries : List (ChunkKey × ChunkRequest))
    (hnd : (aKeys entries).Nodup) (k : ChunkKey) :
    lookupA (pcrEntries guild_id nonce ms c entries) k =
      match lookupA entries k with
      | none => none
      | some r =>
          if reqMatches r guild_id nonce then
            if c then none else some { r with buffer := r.buffer ++ ms }
          else some r := by
  induction entries with
  | nil => simp [pcrEntries, lookupA]
  | cons e rest ih =>
    simp only [aKeys, List.map_cons, List.nodup_cons] at hnd
    have ihr := ih hnd.2
    by_cases hek : e.1 = k
    · have hrest : lookupA rest k = none := by
        apply lookupA_eq_none_of_not_mem
        intro hc
        exact hnd.1 (hek ▸ hc)
      have hrest' : lookupA (pcrEntries guild_id nonce ms c rest) k = none := by
        rw [ihr, hrest]
      by_cases hm : reqMatches e.2 guild_id nonce
      · by_cases hc : c
        · subst hc
          have hstep : pcrEntries guild_id nonce ms true (e :: rest) =
              pcrEntries guild_id nonce ms true rest := by
            simp [pcrEntries, List.filterMap_cons, hm]
          rw [hstep, hrest']
          simp [lookupA, hek, hm]
        · have hcf : c = false := by simpa using hc
          subst hcf
          have hstep : pcrEntries guild_id nonce ms false (e :: rest) =
              (e.1, { e.2 with buffer := e.2.buffer ++ ms }) ::
                pcrEntries guild_id nonce ms false rest := by
            simp [pcrEntries, List.filterMap_cons, hm]
          rw [hstep]
          simp [lookupA, hek, hm]
      · have hstep : pcrEntries guild_id nonce ms c (e :: rest) =
            e :: pcrEntries guild_id nonce ms c rest := by
          simp [pcrEntries, List.filterMap_cons, hm]
        rw [hstep]
        simp [lookupA, hek, hm]
    · by_cases hm : reqMatches e.2 guild_id nonce
      · by_cases hc : c
        · subst hc
          have hstep : pcrEntries guild_id nonce ms true (e :: rest) =
              pcrEntries guild_id nonce ms true rest := by
            simp [pcrEntries, List.filterMap_cons, hm]
          rw [hstep, ihr]
          simp [lookupA, hek]
        · have hcf : c = false := by simpa using hc
          subst hcf
          have hstep : pcrEntries guild_id nonce ms false (e :: rest) =
              (e.1, { e.2 with buffer := e.2.buffer ++ ms }) ::
                pcrEntries guild_id nonce ms false rest := by
            simp [pcrEntries, List.filterMap_cons, hm]
          rw [hstep]
          simp only [lookupA, if_neg hek]
          rw [ihr]
      · have hstep : pcrEntries guild_id nonce ms c (e :: rest) =
            e :: pcrEntries guild_id nonce ms c rest := by
          simp [pcrEntries, List.filterMap_cons, hm]
        rw [hstep]
        simp only [lookupA, if_neg hek]
        rw [ihr]

/-- `process_chunk_requests` never rewrites keys: the surviving entry list's
keys form a sublist of the previous keys. -/
theorem aKeys_pcrEntries_sublist (guild_id : Nat) (nonce : Option String)
    (ms : List Member) (c : Bool)
    (entries : List (ChunkKey × ChunkRequest)) :
    (aKeys (pcrEntries guild_id nonce ms c entries)).Sublist
      (aKeys entries) := by
  induction entries with
  | nil => simp [pcrEntries]
  | cons e rest ih =>
    by_cases hm : reqMatches e.2 guild_id nonce
    · by_cases hc : c
      · subst hc
        simp only [pcrEntries, List.filterMap_cons, hm, if_true, aKeys] at ih ⊢
        exact ih.cons e.1
      · have hcf : c = false := by simpa using hc
        subst hcf
        simp only [pcrEntries, List.filterMap_cons, hm, if_true,
          Bool.false_eq_true, if_false, aKeys, List.map_cons] at ih ⊢
        exact ih.cons₂ e.1
    · simp only [pcrEntries, List.filterMap_cons, hm, Bool.false_eq_true,
        if_false, aKeys, List.map_cons] at ih ⊢
      exact ih.cons₂ e.1

/-- Every surviving entry keeps its key and its request's identity fields
(guild id, nonce, cache flag, waiter list); only the buffer may change. -/
theorem pcrEntries_shape (guild_id : Nat) (nonce : Option String)
    (ms : List Member) (c : Bool)
    (entries : List (ChunkKey × ChunkRequest))
    (e' : ChunkKey × ChunkRequest)
    (h : e' ∈ pcrEntries guild_id nonce ms c entries) :
    ∃ e ∈ entries, e'.1 = e.1 ∧ e'.2.guild_id = e.2.guild_id ∧
      e'.2.nonce = e.2.nonce ∧ e'.2.cache = e.2.cache ∧
      e'.2.waiters = e.2.waiters := by
  induction entries with
  | nil => simp [pcrEntries] at h
  | cons e rest ih =>
    by_cases hm : reqMatches e.2 guild_id nonce
    · by_cases hc : c
      · subst hc
        simp only [pcrEntries, List.filterMap_cons, hm, if_true] at h
        rcases ih h with ⟨x, hx, hrest⟩
        exact ⟨x, List.mem_cons_of_mem _ hx, hrest⟩
      · have hcf : c = false := by simpa using hc
        subst hcf
        simp only [pcrEntries, List.filterMap_cons, hm, if_true,
          Bool.false_eq_true, if_false] at h
        rcases List.mem_cons.mp h with h | h
        · refine ⟨e, List.mem_cons_self _ _, ?_, ?_, ?_, ?_, ?_⟩ <;> simp [h]
        · rcases ih h with ⟨x, hx, hrest⟩
          exact ⟨x, List.mem_cons_of_mem _ hx, hrest⟩
    · simp only [pcrEntries, List.filterMap_cons, hm, Bool.false_eq_true,
        if_false] at h
      rcases List.mem_cons.mp h with h | h
      · refine ⟨e, List.mem_cons_self _ _, ?_, ?_, ?_, ?_, ?_⟩ <;> simp [h]
      · rcases ih h with ⟨x, hx, hrest⟩
        exact ⟨x, List.mem_cons_of_mem _ hx, hrest⟩

/-- Looking up a future id in `resolveFutures`: its value is rewritten to
the result exactly when it is a pending waiter. -/
theorem lookupA_resolveFutures (fs : List (Nat × Option (List Member)))
    (ids : List Nat) (res : List Member) (f : Nat) :
    lookupA (resolveFutures fs ids res) f =
      (lookupA fs f).map (fun v =>
        if f ∈ ids ∧ v = none then some res else v) := by
  induction fs with
  | nil => simp [resolveFutures, lookupA]
  | cons p rest ih =>
    simp only [resolveFutures, List.map_cons]
    by_cases hcond : p.1 ∈ ids ∧ p.2 = none
    · rw [if_pos hcond]
      by_cases hpf : p.1 = f
      · subst hpf
        simp [lookupA, hcond.1, hcond.2]
      · simp only [lookupA, if_neg hpf]
        simpa [resolveFutures] using ih
    · rw [if_neg hcond]
      by_cases hpf : p.1 = f
      · subst hpf
        simp [lookupA, hcond]
      · simp only [lookupA, if_neg hpf]
        simpa [resolveFutures] using ih

/-- A future that is no waiter of any request that the page completes stays
pending across `process_chunk_requests`. -/
theorem pcrFutures_pending (guild_id : Nat) (nonce : Option String)
    (ms : List Member) (c : Bool)
    (entries : List (ChunkKey × ChunkRequest))
    (fs0 : List (Nat × Option (List Member))) (f : Nat)
    (hf : lookupA fs0 f = some none)
    (hw : ∀ e ∈ entries,
      reqMatches e.2 guild_id nonce = true → c = true → f ∉ e.2.waiters) :
    lookupA (pcrFutures guild_id nonce ms c entries fs0) f = some none := by
  induction entries generalizing fs0 with
  | nil => simpa [pcrFutures]
  | cons e rest ih =>
    simp only [pcrFutures, List.foldl_cons]
    by_cases hm : reqMatches e.2 guild_id nonce && c
    · rw [if_pos hm]
      have hm' := Bool.and_eq_true_iff.mp hm
      have hnw : f ∉ e.2.waiters :=
        hw e (List.mem_cons_self _ _) hm'.1 hm'.2
      have : lookupA (resolveFutures fs0 e.2.waiters (e.2.buffer ++ ms)) f =
          some none := by
        rw [lookupA_resolveFutures, hf]
        simp [hnw]
      exact ih _ this (fun x hx => hw x (List.mem_cons_of_mem _ hx))
    · rw [if_neg hm]
      exact ih fs0 hf (fun x hx => hw x (List.mem_cons_of_mem _ hx))

/-- A future already resolved before the call keeps its result. -/
theorem pcrFutures_resolved (guild_id : Nat) (nonce : Option String)
    (ms : List Member) (c : Bool)
    (entries : List (ChunkKey × ChunkRequest))
    (fs0 : List (Nat × Option (List Member))) (f : Nat) (res : List Member)
    (hf : lookupA fs0 f = some (some res)) :
    lookupA (pcrFutures guild_id nonce ms c entries fs0) f =
      some (some res) := by
  induction entries generalizing fs0 with
  | nil => simpa [pcrFutures]
  | cons e rest ih =>
    simp only [pcrFutures, List.foldl_cons]
    by_cases hm : reqMatches e.2 guild_id nonce && c
    · rw [if_pos hm]
      apply ih
      rw [lookupA_resolveFutures, hf]
      simp
    · rw [if_neg hm]
      exact ih fs0 hf

theorem pcrFutures_resolve (guild_id : Nat) (nonce : Option String)
    (ms : List Member) (k : ChunkKey) (r : ChunkRequest) (f : Nat)
    (hm : reqMatches r guild_id nonce = true)
    (hfw : f ∈ r.waiters) :
    ∀ (entries : List (ChunkKey × ChunkRequest))
      (fs0 : List (Nat × Option (List Member))),
      (k, r) ∈ entries → (aKeys entries).Nodup →
      lookupA fs0 f = some none →
      (∀ e ∈ entries, e.1 ≠ k → f ∉ e.2.waiters) →
      lookupA (pcrFutures guild_id nonce ms true entries fs0) f =
        some (some (r.buffer ++ ms)) := by
  intro entries
  induction entries with
  | nil =>
    intro fs0 hmem
    simp at hmem
  | cons e rest ih =>
    intro fs0 hmem hnd hf hothers
    simp only [aKeys, List.map_cons, List.nodup_cons] at hnd
    simp only [pcrFutures, List.foldl_cons]
    rcases List.mem_cons.mp hmem with he | he
    · rw [← he]
      simp only [hm, Bool.and_self, if_true]
      have hres : lookupA
          (resolveFutures fs0 r.waiters (r.buffer ++ ms)) f =
          some (some (r.buffer ++ ms)) := by
        rw [lookupA_resolveFutures, hf]
        simp [hfw]
      exact pcrFutures_resolved _ _ _ _ _ _ _ _ hres
    · have hek : e.1 ≠ k := by
        intro hc
        apply hnd.1
        have : (k, r).1 ∈ List.map Prod.fst rest :=
          List.mem_map_of_mem Prod.fst he
        exact hc ▸ this
      have hnw : f ∉ e.2.waiters := hothers e (List.mem_cons_self _ _) hek
      by_cases hm' : reqMatches e.2 guild_id nonce && true
      · rw [if_pos hm']
        apply ih _ he hnd.2 _
          (fun x hx hxk => hothers x (List.mem_cons_of_mem _ hx) hxk)
        rw [lookupA_resolveFutures, hf]
        simp [hnw]
      · rw [if_neg hm']
        exact ih _ he hnd.2 hf
          (fun x hx hxk => hothers x (List.mem_cons_of_mem _ hx) hxk)

/-- Lookup through `mapReqAt`: the entry under the key is transformed, all
others are untouched. -/
theorem lookupA_mapReqAt (l : List (ChunkKey × ChunkRequest)) (k : ChunkKey)
    (f : ChunkRequest → ChunkRequest) (a : ChunkKey) :
    lookupA (mapReqAt l k f) a =
      if a = k then (lookupA l a).map f else lookupA l a := by
  induction l with
  | nil => simp [mapReqAt, lookupA]
  | cons p rest ih =>
    simp only [mapReqAt, List.map_cons]
    by_cases hpk : p.1 = k
    · rw [if_pos hpk]
      by_cases hpa : p.1 = a
      · have hak : a = k := hpa ▸ hpk
        simp [lookupA, hpa, hak]
      · simp only [mapReqAt] at ih
        simp [lookupA, hpa, ih]
    · rw [if_neg hpk]
      by_cases hpa : p.1 = a
      · have hak : ¬ a = k := fun hc => hpk (hpa.trans hc)
        simp [lookupA, hpa, hak]
      · simp only [mapReqAt] at ih
        simp [lookupA, hpa, ih]

/-- A page that matches no registered request leaves the entry list
unchanged. -/
theorem pcrEntries_id (guild_id : Nat) (nonce : Option String)
    (ms : List Member) (c : Bool)
    (entries : List (ChunkKey × ChunkRequest))
    (h : ∀ e ∈ entries, reqMatches e.2 guild_id nonce = false) :
    pcrEntries guild_id nonce ms c entries = entries := by
  induction entries with
  | nil => rfl
  | cons e rest ih =>
    have he := h e (List.mem_cons_self _ _)
    simp only [pcrEntries, List.filterMap_cons, he, Bool.false_eq_true,
      if_false]
    rw [show List.filterMap _ rest = pcrEntries guild_id nonce ms c rest
      from rfl, ih (fun x hx => h x (List.mem_cons_of_mem _ hx))]

/-- A page that matches no registered request leaves the guild map
unchanged. -/
theorem pcrGuilds_id (guild_id : Nat) (nonce : Option String)
    (ms : List Member) (entries : List (ChunkKey × ChunkRequest))
    (gs0 : List (Nat × Guild))
    (h : ∀ e ∈ entries, reqMatches e.2 guild_id nonce = false) :
    pcrGuilds guild_id nonce ms entries gs0 = gs0 := by
  induction entries generalizing gs0 with
  | nil => rfl
  | cons e rest ih =>
    have he := h e (List.mem_cons_self _ _)
    simp only [pcrGuilds, List.foldl_cons, he, Bool.false_eq_true, if_false]
    exact ih gs0 (fun x hx => h x (List.mem_cons_of_mem _ hx))

/-- A page that matches no registered request resolves no future. -/
theorem pcrFutures_id (guild_id : Nat) (nonce : Option String)
    (ms : List Member) (c : Bool)
    (entries : List (ChunkKey × ChunkRequest))
    (fs0 : List (Nat × Option (List Member)))
    (h : ∀ e ∈ entries, reqMatches e.2 guild_id nonce = false) :
    pcrFutures guild_id nonce ms c entries fs0 = fs0 := by
  induction entries generalizing fs0 with
  | nil => rfl
  | cons e rest ih =>
    have he := h e (List.mem_cons_self _ _)
    simp only [pcrFutures, List.foldl_cons, he, Bool.false_and,
      Bool.false_eq_true, if_false]
    exact ih fs0 (fun x hx => h x (List.mem_cons_of_mem _ hx))

/-- Membership in `mapReqAt`: every entry comes from an entry of the
original list with the same key. -/
theorem mem_mapReqAt (l : List (ChunkKey × ChunkRequest)) (k : ChunkKey)
    (f : ChunkRequest → ChunkRequest) (e' : ChunkKey × ChunkRequest)
    (h : e' ∈ mapReqAt l k f) :
    ∃ p ∈ l, e'.1 = p.1 ∧
      e'.2 = (if p.1 = k then f p.2 else p.2) := by
  unfold mapReqAt at h
  rcases List.mem_map.mp h with ⟨p, hp, he⟩
  refine ⟨p, hp, ?_, ?_⟩ <;> by_cases hpk : p.1 = k <;>
    simp [hpk] at he <;> simp [hpk, ← he]

/-- `mapReqAt` preserves the key sequence. -/
theorem aKeys_mapReqAt (l : List (ChunkKey × ChunkRequest)) (k : ChunkKey)
    (f : ChunkRequest → ChunkRequest) :
    aKeys (mapReqAt l k f) = aKeys l := by
  unfold mapReqAt aKeys
  rw [List.map_map]
  apply List.map_congr_left
  intro p _
  by_cases hpk : p.1 = k <;> simp [hpk]

/-- A member whose cached record already carries a `joined_at` timestamp is
never replaced by the chunk-page merge loop. -/
theorem chunk_merge_foldl_preserve (ms : List Member) (g : Guild) (i : Nat)
    (ex : Member) (t : Nat) (hex : g.get_member i = some ex)
    (hj : ex.joined_at = some t) :
    (ms.foldl chunk_merge_member g).get_member i = some ex := by
  induction ms generalizing g with
  | nil => simpa
  | cons m rest ih =>
    simp only [List.foldl_cons]
    apply ih
    unfold chunk_merge_member
    by_cases hmi : m.id = i
    · subst hmi
      rw [hex]
      have hne : ¬ ex.joined_at = none := by simp [hj]
      simp [hne, hex]
    · have hne : ¬ i = m.id := fun hc => hmi hc.symm
      cases hgm : g.get_member m.id with
      | none =>
        simp only [Guild.get_member, Guild.add_member] at hex ⊢
        simp [lookupA_aInsert, hne, hex]
      | some ex2 =>
        by_cases hj2 : ex2.joined_at = none
        · simp only [hj2, if_true, Guild.get_member, Guild.add_member]
            at hex ⊢
          simp [lookupA_aInsert, hne, hex]
        · simpa [hj2] using hex

/-- Invariant of the ad-hoc query's wait: across any sequence of chunk
pages none of which is a final page for the query's token, the request
stays registered under its token with its single waiter, the waiter future
stays pending, no other request holds that future, the key set stays
duplicate-free and no warning is logged. -/
theorem qm_fold_invariant (gid : Nat) (nonce : String) (cache : Bool)
    (fid : Nat) :
    ∀ (pages : List ChunkPage) (st : ConnectionState),
    (∀ p ∈ pages,
      ¬ (p.guild_id = gid ∧ p.nonce = some nonce ∧ p.complete = true)) →
    (∃ b, lookupA st.chunk_requests (.tok nonce) =
      some { guild_id := gid, cache := cache, nonce := nonce,
             buffer := b, waiters := [fid] }) →
    lookupA st.futures fid = some none →
    (∀ e ∈ st.chunk_requests, e.1 ≠ .tok nonce → fid ∉ e.2.waiters) →
    (aKeys st.chunk_requests).Nodup →
    (∃ b, lookupA (pages.foldl (fun s p =>
        s.process_chunk_requests p.guild_id p.nonce p.members p.complete)
        st).chunk_requests (.tok nonce) =
      some { guild_id := gid, cache := cache, nonce := nonce,
             buffer := b, waiters := [fid] }) ∧
    lookupA (pages.foldl (fun s p =>
        s.process_chunk_requests p.guild_id p.nonce p.members p.complete)
        st).futures fid = some none ∧
    (∀ e ∈ (pages.foldl (fun s p =>
        s.process_chunk_requests p.guild_id p.nonce p.members p.complete)
        st).chunk_requests, e.1 ≠ .tok nonce → fid ∉ e.2.waiters) ∧
    (aKeys (pages.foldl (fun s p =>
        s.process_chunk_requests p.guild_id p.nonce p.members p.complete)
        st).chunk_requests).Nodup ∧
    (pages.foldl (fun s p =>
        s.process_chunk_requests p.guild_id p.nonce p.members p.complete)
        st).warnings = st.warnings := by
  intro pages
  induction pages with
  | nil =>
    intro st _ hreq hfut hoth hnd
    exact ⟨hreq, hfut, hoth, hnd, rfl⟩
  | cons p rest ih =>
    intro st hpages hreq hfut hoth hnd
    rcases hreq with ⟨b, hreq⟩
    have hpage := hpages p (List.mem_cons_self _ _)
    simp only [List.foldl_cons]
    set st' := st.process_chunk_requests p.guild_id p.nonce p.members
      p.complete with hst'
    have hst'eq := process_chunk_requests_eq st p.guild_id p.nonce p.members
      p.complete
    -- the request survives the page, waiters intact
    have hreq' : ∃ b', lookupA st'.chunk_requests (.tok nonce) =
        some { guild_id := gid, cache := cache, nonce := nonce,
               buffer := b', waiters := [fid] } := by
      rw [hst', hst'eq]
      by_cases hm : reqMatches
          { guild_id := gid, cache := cache, nonce := nonce,
            buffer := b, waiters := [fid] } p.guild_id p.nonce
      · have hmm := hm
        unfold reqMatches at hmm
        simp only [Bool.and_eq_true, decide_eq_true_eq] at hmm
        have hcomp : p.complete = false := by
          rcases Bool.eq_false_or_eq_true p.complete with h | h
          · exact absurd ⟨hmm.1.symm, hmm.2.symm, h⟩ hpage
          · exact h
        refine ⟨b ++ p.members, ?_⟩
        rw [lookupA_pcrEntries _ _ _ _ _ hnd, hreq]
        simp [hm, hcomp]
      · refine ⟨b, ?_⟩
        rw [lookupA_pcrEntries _ _ _ _ _ hnd, hreq]
        simp [hm]
    -- the waiter future stays pending
    have hfut' : lookupA st'.futures fid = some none := by
      rw [hst', hst'eq]
      apply pcrFutures_pending _ _ _ _ _ _ _ hfut
      intro e he hm hc
      by_cases hek : e.1 = ChunkKey.tok nonce
      · have : lookupA st.chunk_requests e.1 = some e.2 :=
          lookupA_eq_some_of_mem_nodup hnd he
        rw [hek, hreq] at this
        have he2 : e.2 =
            { guild_id := gid, cache := cache, nonce := nonce,
              buffer := b, waiters := [fid] } := (Option.some.inj this).symm
        unfold reqMatches at hm
        simp only [he2, Bool.and_eq_true, decide_eq_true_eq] at hm
        exact absurd ⟨hm.1.symm, hm.2.symm, hc⟩ hpage
      · exact hoth e he hek
    -- no other entry acquires the future
    have hoth' : ∀ e ∈ st'.chunk_requests, e.1 ≠ .tok nonce →
        fid ∉ e.2.waiters := by
      rw [hst', hst'eq]
      intro e' he' hek
      rcases pcrEntries_shape _ _ _ _ _ _ he' with
        ⟨e, he, hk, _, _, _, hwt⟩
      rw [hwt]
      exact hoth e he (hk ▸ hek)
    have hnd' : (aKeys st'.chunk_requests).Nodup := by
      rw [hst', hst'eq]
      exact (aKeys_pcrEntries_sublist _ _ _ _ _).nodup hnd
    have hwarn' : st'.warnings = st.warnings := by
      rw [hst', hst'eq]
    have := ih st' (fun q hq => hpages q (List.mem_cons_of_mem _ hq))
      hreq' hfut' hoth' hnd'
    refine ⟨this.1, this.2.1, this.2.2.1, this.2.2.2.1, ?_⟩
    rw [this.2.2.2.2, hwarn']

/-- Length of a dict assignment: unchanged for an existing key, one more
for a fresh key. -/
theorem aInsert_length {α β : Type} [DecidableEq α]
    (l : List (α × β)) (k : α) (v : β) :
    (aInsert l k v).length =
      if l.any (fun p => p.1 = k) then l.length else l.length + 1 := by
  unfold aInsert
  by_cases h : (l.any (fun p => p.1 = k)) = true <;> simp [h]

/-- A dict assignment to an existing key keeps the key sequence. -/
theorem aKeys_aInsert_of_mem {α β : Type} [DecidableEq α]
    (l : List (α × β)) (k : α) (v : β)
    (h : (l.any (fun p => p.1 = k)) = true) :
    aKeys (aInsert l k v) = aKeys l := by
  unfold aInsert aKeys
  rw [if_pos h, List.map_map]
  apply List.map_congr_left
  intro p _
  by_cases hpk : p.1 = k <;> simp [hpk]

/-- A future that is not a pending waiter of any request the page completes
keeps its exact state across `process_chunk_requests`. -/
theorem pcrFutures_untouched (guild_id : Nat) (nonce : Option String)
    (ms : List Member) (c : Bool)
    (entries : List (ChunkKey × ChunkRequest))
    (fs0 : List (Nat × Option (List Member))) (f : Nat)
    (hw : ∀ e ∈ entries,
      reqMatches e.2 guild_id nonce = true → c = true → f ∉ e.2.waiters) :
    lookupA (pcrFutures guild_id nonce ms c entries fs0) f =
      lookupA fs0 f := by
  induction entries generalizing fs0 with
  | nil => rfl
  | cons e rest ih =>
    simp only [pcrFutures, List.foldl_cons]
    by_cases hm : reqMatches e.2 guild_id nonce && c
    · rw [if_pos hm]
      have hm' := Bool.and_eq_true_iff.mp hm
      have hnw : f ∉ e.2.waiters :=
        hw e (List.mem_cons_self _ _) hm'.1 hm'.2
      have step : lookupA (resolveFutures fs0 e.2.waiters
          (e.2.buffer ++ ms)) f = lookupA fs0 f := by
        rw [lookupA_resolveFutures]
        cases lookupA fs0 f with
        | none => rfl
        | some v => simp [hnw]
      exact (ih _ (fun x hx => hw x (List.mem_cons_of_mem _ hx))).trans step
    · rw [if_neg hm]
      exact ih fs0 (fun x hx => hw x (List.mem_cons_of_mem _ hx))

/-- `store_user` only touches the user map. -/
theorem store_user_guilds (st : ConnectionState) (u : User) :
    (st.store_user u).guilds = st.guilds := by
  unfold ConnectionState.store_user
  cases lookupA st.users u.id
  · by_cases hd : u.discriminator = "0000" <;> simp [hd]
  · rfl

/-! ## Lemmas about the readiness coordinator -/

/-- No block of a `_delay_ready` run contains the terminal `ready`
notification: `ready` is only dispatched after the loops finish. -/
theorem ready_notin_blocks (st : ConnectionState) (gs : List Guild)
    (b : List REv) (hb : b ∈ delayReadyBlocks st gs) : REv.ready ∉ b := by
  unfold delayReadyBlocks at hb
  rcases List.mem_append.mp hb with hb | hb
  · rcases List.mem_map.mp hb with ⟨g, _, hg⟩
    subst hg
    unfold collectBlock
    by_cases h1 : st.guild_needs_chunking g
    · simp [h1]
    · by_cases h2 : g.unavailable = some false <;> simp [h1, h2]
  · rcases List.mem_map.mp hb with ⟨g, _, hg⟩
    subst hg
    unfold drainBlock
    by_cases h2 : g.unavailable = some false <;> simp [h2]

/-- Any prefix of the block sequence contains no `ready`. -/
theorem ready_notin_take_flatten (st : ConnectionState) (gs : List Guild)
    (j : Nat) :
    REv.ready ∉ ((delayReadyBlocks st gs).take j).flatten := by
  intro h
  rcases List.mem_flatten.mp h with ⟨b, hb, hrb⟩
  exact ready_notin_blocks st gs b (List.take_subset j _ hb) hrb

/-- A `chunk_start` in a run comes from the collecting loop, for a guild
that needed chunking. -/
theorem chunk_start_origin (st : ConnectionState) (gs : List Guild) (i : Nat)
    (h : REv.chunk_start i ∈ delayReadyRun st gs) :
    ∃ g ∈ gs, g.id = i ∧ st.guild_needs_chunking g = true := by
  unfold delayReadyRun at h
  rcases List.mem_append.mp h with h | h
  · rcases List.mem_flatten.mp h with ⟨b, hb, hrb⟩
    unfold delayReadyBlocks at hb
    rcases List.mem_append.mp hb with hb | hb
    · rcases List.mem_map.mp hb with ⟨g, hg, hgb⟩
      subst hgb
      unfold collectBlock at hrb
      by_cases hn : st.guild_needs_chunking g
      · rw [if_pos hn] at hrb
        simp only [List.mem_singleton, REv.chunk_start.injEq] at hrb
        exact ⟨g, hg, hrb.symm, hn⟩
      · rw [if_neg hn] at hrb
        split at hrb <;> simp at hrb
    · rcases List.mem_map.mp hb with ⟨g, _, hgb⟩
      subst hgb
      unfold drainBlock at hrb
      split at hrb <;> simp at hrb
  · simp at h



/-- Field view of `_add_private_channel`: the stored map. -/
theorem add_private_channel_pcs (st : ConnectionState)
    (ch : PrivateChannel) :
    (st.add_private_channel ch).private_channels =
      (if 128 < (odSet st.private_channels ch.id ch).length then
        evictOldest (odSet st.private_channels ch.id ch)
          st.private_channels_by_user
      else (odSet st.private_channels ch.id ch,
        st.private_channels_by_user)).1 := rfl

/-- Field view of `_add_private_channel`: the by-recipient index. -/
theorem add_private_channel_byuser (st : ConnectionState)
    (ch : PrivateChannel) :
    (st.add_private_channel ch).private_channels_by_user =
      indexRecipient
        (if 128 < (odSet st.private_channels ch.id ch).length then
          evictOldest (odSet st.private_channels ch.id ch)
            st.private_channels_by_user
        else (odSet st.private_channels ch.id ch,
          st.private_channels_by_user)).2 ch := rfl

/-- `popitem(last=False)` drops exactly one entry. -/
theorem evictOldest_fst_length (pcs bu : List (Nat × PrivateChannel)) :
    (evictOldest pcs bu).1.length = pcs.length - 1 := by
  cases pcs with
  | nil => rfl
  | cons hd tl =>
    obtain ⟨k0, c0⟩ := hd
    cases c0 with
    | dm i r => cases r <;> simp [evictOldest]
    | group i t => simp [evictOldest]

/-- `popitem(last=False)` on a non-empty map keeps exactly the tail. -/
theorem evictOldest_fst_cons (k0 : Nat) (c0 : PrivateChannel)
    (tl bu : List (Nat × PrivateChannel)) :
    (evictOldest ((k0, c0) :: tl) bu).1 = tl := by
  cases c0 with
  | dm i r => cases r <;> rfl
  | group i t => rfl

/-- The by-user index after eviction: the evicted channel's recipient (if
any) is dropped. -/
theorem evictOldest_snd_cons (k0 : Nat) (c0 : PrivateChannel)
    (tl bu : List (Nat × PrivateChannel)) :
    (evictOldest ((k0, c0) :: tl) bu).2 =
      (match c0.recipient with
       | some rc => aErase bu rc
       | none => bu) := by
  cases c0 with
  | dm i r => cases r <;> rfl
  | group i t => rfl

/-- Indexing a channel under its own recipient does not affect lookups of
other user ids. -/
theorem lookupA_indexRecipient (bu : List (Nat × PrivateChannel))
    (ch : PrivateChannel) (a : Nat) (h : ch.recipient ≠ some a) :
    lookupA (indexRecipient bu ch) a = lookupA bu a := by
  cases ch with
  | dm i r =>
    cases r with
    | none => rfl
    | some r0 =>
      have hne : ¬ a = r0 := by
        intro hc
        exact h (by simp [PrivateChannel.recipient, hc])
      simp [indexRecipient, lookupA_aInsert, hne]
  | group i t => rfl


/-- Erasing exactly the ids owned by a guild from a global map keyed by id:
an entry survives iff it was there before and is owned by another guild
(under the key/ownership consistency of the two maps). -/
theorem foldl_erase_owned_iff {γ : Type} [DecidableEq γ] (idOf : γ → Nat)
    (gOf : γ → Nat) (owned : List γ) (m : List (Nat × γ)) (gid : Nat)
    (hk : ∀ p ∈ m, p.1 = idOf p.2)
    (hown : ∀ e ∈ owned, ∀ e', lookupA m (idOf e) = some e' → gOf e' = gid)
    (hcov : ∀ p ∈ m, gOf p.2 = gid → idOf p.2 ∈ owned.map idOf)
    (i : Nat) (x : γ) :
    lookupA (owned.foldl (fun mm e => aErase mm (idOf e)) m) i = some x ↔
      (lookupA m i = some x ∧ gOf x ≠ gid) := by
  rw [lookupA_foldl_aErase]
  by_cases hin : i ∈ owned.map idOf
  · simp only [hin, if_true]
    constructor
    · intro h
      cases h
    · rintro ⟨hlk, hne⟩
      rcases List.mem_map.mp hin with ⟨e0, he0, hid0⟩
      exact absurd (hown e0 he0 x (hid0 ▸ hlk)) hne
  · simp only [hin, if_false]
    constructor
    · intro h
      refine ⟨h, ?_⟩
      intro hgx
      have hpm := lookupA_mem h
      have hkk : i = idOf x := hk (i, x) hpm
      have hcc : idOf x ∈ owned.map idOf := hcov (i, x) hpm hgx
      exact absurd hcc (hkk ▸ hin)
    · rintro ⟨hlk, _⟩
      exact hlk


/-- `query_members_run` decomposed: register and subscribe (`qmStart`),
process the scheduled pages, then read the waiter future. -/
theorem query_members_run_eq (st : ConnectionState) (gid : Nat)
    (nonce : String) (cache : Bool) (pages : List ChunkPage) :
    st.query_members_run gid nonce cache pages =
      (match lookupA (pages.foldl (fun s p =>
          s.process_chunk_requests p.guild_id p.nonce p.members p.complete)
          (qmStart st gid nonce cache)).futures st.next_future with
       | some (some ms) =>
           ({ (pages.foldl (fun s p =>
                s.process_chunk_requests p.guild_id p.nonce p.members
                  p.complete) (qmStart st gid nonce cache)) with
              chunk_requests := mapReqAt (pages.foldl (fun s p =>
                s.process_chunk_requests p.guild_id p.nonce p.members
                  p.complete) (qmStart st gid nonce cache)).chunk_requests
                (.tok nonce)
                (fun r =>
                  { r with waiters := r.waiters.erase st.next_future }) },
            .ok ms)
       | _ =>
           ({ (pages.foldl (fun s p =>
                s.process_chunk_requests p.guild_id p.nonce p.members
                  p.complete) (qmStart st gid nonce cache)) with
              chunk_requests := mapReqAt (pages.foldl (fun s p =>
                s.process_chunk_requests p.guild_id p.nonce p.members
                  p.complete) (qmStart st gid nonce cache)).chunk_requests
                (.tok nonce)
                (fun r =>
                  { r with waiters := r.waiters.erase st.next_future }),
              warnings := (pages.foldl (fun s p =>
                s.process_chunk_requests p.guild_id p.nonce p.members
                  p.complete)
                (qmStart st gid nonce cache)).warnings + 1 },
            .error ())) := rfl

/-! ## Claim theorems -/

/-- C4 (counterexample): the claim says a `maxMessages` of 0 disables
message caching; on the code, 0 falls into the `<= 0` reset, the capacity
becomes the default 1000 and a ring buffer is still created. -/
theorem max_messages_zero_caches_cex :
    initMaxMessages (some (some 0)) = some 1000 ∧
    initMessages (initMaxMessages (some (some 0))) ≠ none := by
  constructor
  · rfl
  · intro h
    simp [initMaxMessages, initMessages] at h

/-- C4 (amended): an absent `maxMessages` option yields the default
capacity 1000; an explicit `None` disables message caching (no ring
buffer); zero and negative values silently reset the capacity to the
default 1000 (a buffer is kept). -/
theorem max_messages_construction (v : Int) :
    initMaxMessages none = some 1000 ∧
    initMaxMessages (some none) = none ∧
    initMessages none = none ∧
    (v ≤ 0 → initMaxMessages (some (some v)) = some 1000) ∧
    (0 < v → initMaxMessages (some (some v)) = some v) ∧
    initMessages (some 1000) = some { cap := some 1000, items := [] } := by
  refine ⟨rfl, rfl, rfl, ?_, ?_, rfl⟩
  · intro h
    simp [initMaxMessages, h]
  · intro h
    have hv : ¬ v ≤ 0 := by omega
    simp [initMaxMessages, hv]

/-- C4 witness: the amended theorem applied at the concrete values −3
and 5. -/
theorem max_messages_construction_witness :
    ((-3 : Int) ≤ 0 ∧ initMaxMessages (some (some (-3))) = some 1000) ∧
    ((0 : Int) < 5 ∧ initMaxMessages (some (some 5)) = some 5) :=
  ⟨⟨by decide, (max_messages_construction (-3)).2.2.2.1 (by decide)⟩,
   ⟨by decide, (max_messages_construction 5).2.2.2.2.1 (by decide)⟩⟩

/-- C6 (confirmed): a guild flagged `chunked` at announcement time never
needs chunking and never triggers a chunk request in a `_delay_ready` run,
whatever the configuration; and the needs-chunking predicate is exactly
"startup chunking enabled, not already chunked, and not (presences intent
with a non-large guild)". -/
theorem chunked_guild_skips_backfill (st : ConnectionState) (g : Guild)
    (gs : List Guild) (i : Nat) :
    (g.chunked = true → st.guild_needs_chunking g = false) ∧
    (st.guild_needs_chunking g =
      (st.chunk_guilds && !g.chunked && !(st.intents_presences && !g.large))) ∧
    ((∀ gg ∈ gs, gg.id = i → gg.chunked = true) →
      REv.chunk_start i ∉ delayReadyRun st gs) := by
  refine ⟨?_, rfl, ?_⟩
  · intro h
    simp [ConnectionState.guild_needs_chunking, h]
  · intro h hc
    rcases chunk_start_origin st gs i hc with ⟨gg, hgg, hid, hn⟩
    have := h gg hgg hid
    simp [ConnectionState.guild_needs_chunking, this] at hn

/-- C6 witness: the theorem applied to the chunked example guild in a
state with startup chunking enabled. -/
theorem chunked_guild_skips_backfill_witness :
    exGuildA.chunked = true ∧
    emptyState.guild_needs_chunking exGuildA = false ∧
    (REv.chunk_start 7 ∉ delayReadyRun emptyState [exGuildA]) := by
  have h : ∀ gg ∈ [exGuildA], gg.id = 7 → gg.chunked = true := by
    intro gg hgg _
    simp only [List.mem_singleton] at hgg
    subst hgg
    rfl
  exact ⟨rfl,
    (chunked_guild_skips_backfill emptyState exGuildA [exGuildA] 7).1 rfl,
    (chunked_guild_skips_backfill emptyState exGuildA [exGuildA] 7).2.2 h⟩

/-- C7 (confirmed): a completed `_delay_ready` run dispatches exactly one
`ready`, after every per-guild notification; with zero announced guilds the
run is exactly `[ready]`; a cancelled run (cut at any suspension point)
dispatches no `ready`. -/
theorem delay_ready_terminal_ready (st : ConnectionState) (gs : List Guild)
    (j : Nat) :
    (delayReadyRun st gs).count REv.ready = 1 ∧
    (delayReadyRun st gs).getLast? = some REv.ready ∧
    (gs = [] → delayReadyRun st gs = [REv.ready]) ∧
    (delayReadyCancelled st gs j).count REv.ready = 0 := by
  refine ⟨?_, ?_, ?_, ?_⟩
  · unfold delayReadyRun
    rw [List.count_append]
    have h0 : (delayReadyBlocks st gs).flatten.count REv.ready = 0 := by
      rw [List.count_eq_zero]
      intro h
      rcases List.mem_flatten.mp h with ⟨b, hb, hrb⟩
      exact ready_notin_blocks st gs b hb hrb
    rw [h0]
    rfl
  · unfold delayReadyRun
    exact List.getLast?_concat _
  · intro h
    subst h
    rfl
  · rw [List.count_eq_zero]
    exact ready_notin_take_flatten st gs j

/-- C7 witness: the theorem applied to the empty announcement queue. -/
theorem delay_ready_terminal_ready_witness :
    delayReadyRun emptyState [] = [REv.ready] ∧
    (delayReadyCancelled emptyState [] 0).count REv.ready = 0 :=
  ⟨(delay_ready_terminal_ready emptyState [] 0).2.2.1 rfl,
   (delay_ready_terminal_ready emptyState [] 0).2.2.2⟩


/-- C9 (confirmed): on a cached guild, member and scheduled event, the
scheduled-event user-add handler and the user-remove handler perform the
identical state mutation, and each bumps the event's subscriber counter by
exactly one (the remove handler does not decrement). -/
theorem scheduled_event_subscriber_increment (st : ConnectionState)
    (gid uid eid : Nat) (guild : Guild) (m : Member) (ev : ScheduledEvent)
    (hg : lookupA st.guilds gid = some guild)
    (hm : guild.get_member uid = some m)
    (hev : guild.get_scheduled_event eid = some ev)
    (hid : ev.id = eid) :
    (st.parse_guild_scheduled_event_user_add gid uid eid =
      st.parse_guild_scheduled_event_user_remove gid uid eid) ∧
    (∃ g', lookupA
        (st.parse_guild_scheduled_event_user_add gid uid eid).guilds gid =
          some g' ∧
      g'.get_scheduled_event eid =
        some { ev with subscriber_count := ev.subscriber_count + 1 }) ∧
    (∃ g', lookupA
        (st.parse_guild_scheduled_event_user_remove gid uid eid).guilds
          gid = some g' ∧
      g'.get_scheduled_event eid =
        some { ev with subscriber_count := ev.subscriber_count + 1 }) := by
  have heq : st.parse_guild_scheduled_event_user_add gid uid eid =
      st.parse_guild_scheduled_event_user_remove gid uid eid := rfl
  have hone : ∃ g', lookupA
      (st.parse_guild_scheduled_event_user_add gid uid eid).guilds gid =
        some g' ∧
      g'.get_scheduled_event eid =
        some { ev with subscriber_count := ev.subscriber_count + 1 } := by
    refine ⟨guild.add_scheduled_event
      { ev with subscriber_count := ev.subscriber_count + 1 }, ?_, ?_⟩
    · simp only [ConnectionState.parse_guild_scheduled_event_user_add, hg,
        hm, hev]
      rw [lookupA_aInsert]
      simp
    · unfold Guild.add_scheduled_event Guild.get_scheduled_event
      simp only []
      rw [lookupA_aInsert]
      simp [hid]
  exact ⟨heq, hone, heq ▸ hone⟩

/-- C9 witness: the theorem applied to the example guild with its cached
member 42 and scheduled event 3. -/
theorem scheduled_event_subscriber_increment_witness :
    ∃ g', lookupA
        (exState.parse_guild_scheduled_event_user_add 7 42 3).guilds 7 =
          some g' ∧
      g'.get_scheduled_event 3 =
        some { exEvent with subscriber_count := exEvent.subscriber_count + 1 } :=
  (scheduled_event_subscriber_increment exState 7 42 3 exGuildA exMember
    exEvent rfl rfl rfl rfl).2.1

/-- C10 (confirmed): with a tracked approximate member count, a
guild-member-add event increments it by exactly one and a
guild-member-remove event decrements it by exactly one, for any value of
the `joined` member-cache flag and whether or not the affected member is
cached (the state, member and user are universally quantified). -/
theorem member_count_add_remove (st : ConnectionState) (gid : Nat)
    (m : Member) (u : User) (guild : Guild) (n : Int)
    (hg : lookupA st.guilds gid = some guild)
    (hn : guild.member_count = some n) :
    (∃ g', lookupA (st.parse_guild_member_add gid m).guilds gid = some g' ∧
      g'.member_count = some (n + 1)) ∧
    (∃ g', lookupA (st.parse_guild_member_remove gid u).guilds gid =
        some g' ∧
      g'.member_count = some (n - 1)) := by
  constructor
  · simp only [ConnectionState.parse_guild_member_add, hg]
    by_cases hj : st.member_cache_joined
    · simp only [hj, if_true]
      have hcnt : (guild.add_member m).member_count = some n := hn
      rw [hcnt]
      exact ⟨_, by rw [lookupA_aInsert, if_pos rfl], rfl⟩
    · simp only [hj, Bool.false_eq_true, if_false]
      rw [hn]
      exact ⟨_, by rw [lookupA_aInsert, if_pos rfl], rfl⟩
  · simp only [ConnectionState.parse_guild_member_remove, store_user_guilds,
      hg, hn, Guild.get_member]
    cases hgm : lookupA guild.members u.id with
    | none =>
      simp only [hgm]
      exact ⟨_, by rw [lookupA_aInsert, if_pos rfl], rfl⟩
    | some mm =>
      simp only [hgm]
      exact ⟨_, by rw [lookupA_aInsert, if_pos rfl], rfl⟩

/-- C10 witness: the theorem applied to the example guild (count 10): add
yields 11, remove yields 9. -/
theorem member_count_add_remove_witness :
    (∃ g', lookupA (exState.parse_guild_member_add 7
        { id := 50, joined_at := none, payload := 0 }).guilds 7 = some g' ∧
      g'.member_count = some 11) ∧
    (∃ g', lookupA (exState.parse_guild_member_remove 7
        { id := 60, discriminator := "1234" }).guilds 7 = some g' ∧
      g'.member_count = some 9) :=
  member_count_add_remove exState 7
    { id := 50, joined_at := none, payload := 0 }
    { id := 60, discriminator := "1234" } exGuildA 10 rfl rfl

/-- C8 (confirmed): with caching enabled, a chunk page always extends the
request's buffer by exactly the page's members; the owning guild's member
map is updated by folding the per-member merge over the page when the
guild is cached (and untouched when it is not); one merge step caches the
member exactly when no member with that id is cached or the cached record
has a null joined timestamp; and a cached member with a non-null joined
timestamp survives the whole page untouched. -/
theorem chunk_page_member_merge (r : ChunkRequest)
    (guilds : List (Nat × Guild)) (ms : List Member) (g : Guild) (i : Nat)
    (ex : Member) (t : Nat) (hc : r.cache = true) :
    ((r.add_members guilds ms).1.buffer = r.buffer ++ ms) ∧
    (lookupA guilds r.guild_id = none →
      (r.add_members guilds ms).2 = guilds) ∧
    (lookupA guilds r.guild_id = some g →
      (r.add_members guilds ms).2 =
        aInsert guilds r.guild_id (ms.foldl chunk_merge_member g)) ∧
    (∀ m, g.get_member m.id = none →
      chunk_merge_member g m = g.add_member m) ∧
    (∀ m ex', g.get_member m.id = some ex' → ex'.joined_at = none →
      chunk_merge_member g m = g.add_member m) ∧
    (∀ m ex', g.get_member m.id = some ex' → ex'.joined_at ≠ none →
      chunk_merge_member g m = g) ∧
    (g.get_member i = some ex → ex.joined_at = some t →
      (ms.foldl chunk_merge_member g).get_member i = some ex) := by
  refine ⟨?_, ?_, ?_, ?_, ?_, ?_, ?_⟩
  · rw [add_members_fst]
  · intro h
    exact add_members_snd_noguild r guilds ms h
  · intro h
    exact add_members_snd_cache r guilds ms g hc h
  · intro m h
    unfold chunk_merge_member
    rw [h]
  · intro m ex' h hj
    unfold chunk_merge_member
    rw [h]
    simp [hj]
  · intro m ex' h hj
    unfold chunk_merge_member
    rw [h]
    simp [hj]
  · intro hex hj
    exact chunk_merge_foldl_preserve ms g i ex t hex hj

/-- C8 witness: a concrete page on the example guild: member 42 already
has a joined timestamp and survives; a fresh member 99 is cached; the
buffer grows by the page. -/
theorem chunk_page_member_merge_witness :
    (({ guild_id := 7, cache := true, nonce := "w", buffer := [],
        waiters := [] } : ChunkRequest).add_members [(7, exGuildA)]
        [{ id := 99, joined_at := none, payload := 1 }]).1.buffer =
      [{ id := 99, joined_at := none, payload := 1 }] ∧
    ([({ id := 99, joined_at := none, payload := 1 } : Member)].foldl
        chunk_merge_member exGuildA).get_member 42 = some exMember := by
  constructor
  · exact (chunk_page_member_merge
      { guild_id := 7, cache := true, nonce := "w", buffer := [],
        waiters := [] } [(7, exGuildA)]
      [{ id := 99, joined_at := none, payload := 1 }] exGuildA 42 exMember 5
      rfl).1
  · exact (chunk_page_member_merge
      { guild_id := 7, cache := true, nonce := "w", buffer := [],
        waiters := [] } [(7, exGuildA)]
      [{ id := 99, joined_at := none, payload := 1 }] exGuildA 42 exMember 5
      rfl).2.2.2.2.2.2 rfl rfl


/-- C3 (counterexample): the claim says inserting an already-present key
marks it most-recently-used; on the code, an `OrderedDict` assignment to an
existing key keeps its position, so after re-inserting key 1 into a
two-entry map the most-recently-used slot still holds key 2 (the value is
updated in place). -/
theorem private_channel_update_not_promoted_cex :
    (({ emptyState with private_channels :=
        [(1, PrivateChannel.dm 1 none), (2, PrivateChannel.dm 2 none)] }
      : ConnectionState).add_private_channel
        (PrivateChannel.dm 1 (some 9))).private_channels =
      [(1, PrivateChannel.dm 1 (some 9)), (2, PrivateChannel.dm 2 none)] ∧
    ¬ ((({ emptyState with private_channels :=
        [(1, PrivateChannel.dm 1 none), (2, PrivateChannel.dm 2 none)] }
      : ConnectionState).add_private_channel
        (PrivateChannel.dm 1 (some 9))).private_channels.getLast? =
      some (1, PrivateChannel.dm 1 (some 9))) := by
  constructor
  · rfl
  · decide

/-- C3 (amended): the private-channel LRU never exceeds 128 entries after
an insert or a lookup; inserting when full evicts exactly the
least-recently-touched entry and, when that entry is a DM channel with a
known recipient, drops that recipient from the by-recipient index;
inserting an already-present key updates the value in place *without*
changing its recency position; a successful lookup promotes the entry to
most-recently-used. -/
theorem private_channel_lru_policy (st : ConnectionState)
    (ch : PrivateChannel) (cid : Nat) (c0 chead : PrivateChannel) (k : Nat)
    (rest : List (Nat × PrivateChannel)) :
    (st.private_channels.length ≤ 128 →
      (st.add_private_channel ch).private_channels.length ≤ 128 ∧
      (st.get_private_channel cid).2.private_channels.length ≤ 128) ∧
    (st.private_channels.length = 128 →
      lookupA st.private_channels ch.id = none →
      st.private_channels = (k, chead) :: rest →
      (st.add_private_channel ch).private_channels =
        rest ++ [(ch.id, ch)] ∧
      (∀ rc, chead.recipient = some rc → ch.recipient ≠ some rc →
        lookupA (st.add_private_channel ch).private_channels_by_user rc =
          none)) ∧
    (st.private_channels.length ≤ 128 →
      lookupA st.private_channels ch.id = some c0 →
      aKeys (st.add_private_channel ch).private_channels =
        aKeys st.private_channels ∧
      lookupA (st.add_private_channel ch).private_channels ch.id =
        some ch) ∧
    (lookupA st.private_channels cid = some c0 →
      (st.get_private_channel cid).1 = some c0 ∧
      (st.get_private_channel cid).2.private_channels.getLast? =
        some (cid, c0)) := by
  refine ⟨?_, ?_, ?_, ?_⟩
  · intro hlen
    constructor
    · rw [add_private_channel_pcs]
      have h1 : (odSet st.private_channels ch.id ch).length ≤
          st.private_channels.length + 1 := by
        unfold odSet
        rw [aInsert_length]
        split <;> omega
      by_cases hov : 128 < (odSet st.private_channels ch.id ch).length
      · rw [if_pos hov]
        rw [evictOldest_fst_length]
        omega
      · rw [if_neg hov]
        show (odSet st.private_channels ch.id ch).length ≤ 128
        omega
    · unfold ConnectionState.get_private_channel
      cases hl : lookupA st.private_channels cid with
      | none => simpa using hlen
      | some v =>
        have hlt := length_filter_lt_of_lookupA hl
        simp only [List.length_append, List.length_cons, List.length_nil]
        omega
  · intro hlen hfresh hdecomp
    have hnotmem :
        ¬ (st.private_channels.any (fun p => p.1 = ch.id)) = true := by
      intro hany
      rcases exists_lookupA_of_mem_keys
        ((any_key_iff_mem _ _).mp hany) with ⟨b, hb⟩
      rw [hfresh] at hb
      cases hb
    have hps : odSet st.private_channels ch.id ch =
        st.private_channels ++ [(ch.id, ch)] := by
      unfold odSet aInsert
      rw [if_neg hnotmem]
    have hlen1 : (odSet st.private_channels ch.id ch).length = 129 := by
      rw [hps, List.length_append, hlen]
      rfl
    have hov : 128 < (odSet st.private_channels ch.id ch).length := by
      omega
    constructor
    · rw [add_private_channel_pcs, if_pos hov, hps, hdecomp,
        List.cons_append, evictOldest_fst_cons]
    · intro rc hrec hne
      rw [add_private_channel_byuser, if_pos hov, hps, hdecomp,
        List.cons_append, lookupA_indexRecipient _ _ _ hne,
        evictOldest_snd_cons, hrec]
      simp [lookupA_erase]
  · intro hlen hex
    have hmem : (st.private_channels.any (fun p => p.1 = ch.id)) = true :=
      (any_key_iff_mem _ _).mpr
        (List.mem_map_of_mem Prod.fst (lookupA_mem hex))
    have hlen1 : (odSet st.private_channels ch.id ch).length =
        st.private_channels.length := by
      unfold odSet
      rw [aInsert_length, if_pos hmem]
    have hov : ¬ 128 < (odSet st.private_channels ch.id ch).length := by
      omega
    constructor
    · rw [add_private_channel_pcs, if_neg hov]
      exact aKeys_aInsert_of_mem _ _ _ hmem
    · rw [add_private_channel_pcs, if_neg hov]
      unfold odSet
      rw [lookupA_aInsert, if_pos rfl]
  · intro hex
    unfold ConnectionState.get_private_channel
    simp only [hex]
    exact ⟨by trivial, List.getLast?_concat _⟩

set_option maxRecDepth 8192 in
/-- C3 witness: the theorem applied to a state at capacity (keys 0..127):
a fresh insert of channel 200 evicts exactly key 0; looking up key 5
returns its channel and moves it last; re-inserting key 5 keeps the key
order and updates the value. -/
theorem private_channel_lru_policy_witness :
    ((lruState.add_private_channel
        (PrivateChannel.dm 200 (some 9))).private_channels =
      (mkPcs 128).tail ++ [(200, PrivateChannel.dm 200 (some 9))]) ∧
    ((lruState.get_private_channel 5).1 =
        some (PrivateChannel.group 5 0) ∧
      (lruState.get_private_channel 5).2.private_channels.getLast? =
        some (5, PrivateChannel.group 5 0)) ∧
    (aKeys ((lruState.add_private_channel
          (PrivateChannel.group 5 7)).private_channels) =
        aKeys lruState.private_channels ∧
      lookupA ((lruState.add_private_channel
          (PrivateChannel.group 5 7)).private_channels) 5 =
        some (PrivateChannel.group 5 7)) := by
  refine ⟨?_, ?_, ?_⟩
  · exact ((private_channel_lru_policy lruState
      (PrivateChannel.dm 200 (some 9)) 0 (PrivateChannel.group 0 0)
      (PrivateChannel.group 0 0) 0 (mkPcs 128).tail).2.1
      (by decide) (by decide) (by decide)).1
  · exact (private_channel_lru_policy lruState
      (PrivateChannel.dm 200 (some 9)) 5 (PrivateChannel.group 5 0)
      (PrivateChannel.group 0 0) 0 []).2.2.2 (by decide)
  · exact (private_channel_lru_policy lruState
      (PrivateChannel.group 5 7) 5 (PrivateChannel.group 5 0)
      (PrivateChannel.group 0 0) 0 []).2.2.1 (by decide) (by decide)


/-- C5 (confirmed): deleting a cached guild (with the unavailable flag not
set) removes it from the guild map (other guilds untouched), removes from
the global emoji and sticker maps exactly the entries owned by that guild,
and rebuilds the message ring buffer containing exactly the messages of
other guilds (and DMs), in order, with the capacity preserved.  The
consistency hypotheses state that the global maps are keyed by entity id
and agree with the guild's own emoji/sticker lists. -/
theorem guild_delete_cascade (st : ConnectionState) (gid : Nat)
    (guild : Guild)
    (hg : lookupA st.guilds gid = some guild)
    (hid : guild.id = gid)
    (hEk : ∀ p ∈ st.emojis, p.1 = p.2.id)
    (hEown : ∀ e ∈ guild.emojis, ∀ e',
      lookupA st.emojis e.id = some e' → e'.guild_id = gid)
    (hEcov : ∀ p ∈ st.emojis, p.2.guild_id = gid →
      p.2.id ∈ guild.emojis.map Emoji.id)
    (hSk : ∀ p ∈ st.stickers, p.1 = p.2.id)
    (hSown : ∀ s ∈ guild.stickers, ∀ s',
      lookupA st.stickers s.id = some s' → s'.guild_id = gid)
    (hScov : ∀ p ∈ st.stickers, p.2.guild_id = gid →
      p.2.id ∈ guild.stickers.map Sticker.id) :
    lookupA (st.parse_guild_delete gid false).guilds gid = none ∧
    (∀ kk, kk ≠ gid →
      lookupA (st.parse_guild_delete gid false).guilds kk =
        lookupA st.guilds kk) ∧
    (∀ eid e, lookupA (st.parse_guild_delete gid false).emojis eid =
        some e ↔
      (lookupA st.emojis eid = some e ∧ e.guild_id ≠ gid)) ∧
    (∀ sid s, lookupA (st.parse_guild_delete gid false).stickers sid =
        some s ↔
      (lookupA st.stickers sid = some s ∧ s.guild_id ≠ gid)) ∧
    (∀ d, st.messages = some d →
      d.cap = st.max_messages.map Int.toNat →
      (st.parse_guild_delete gid false).messages =
        some { cap := d.cap,
               items := d.items.filter
                 (fun mm => ¬ mm.guild_id = some gid) }) := by
  have hst' : st.parse_guild_delete gid false =
      { st with
        messages := st.messages.map (fun d =>
          { cap := st.max_messages.map Int.toNat,
            items := d.items.filter (fun m => ¬ m.guild_id = some gid) }),
        guilds := aErase st.guilds guild.id,
        emojis := guild.emojis.foldl (fun m e => aErase m e.id) st.emojis,
        stickers :=
          guild.stickers.foldl (fun m s => aErase m s.id) st.stickers } := by
    simp only [ConnectionState.parse_guild_delete, hg, Bool.false_eq_true,
      if_false, ConnectionState.remove_guild]
  refine ⟨?_, ?_, ?_, ?_, ?_⟩
  · rw [hst']
    show lookupA (aErase st.guilds guild.id) gid = none
    rw [lookupA_erase, hid]
    simp
  · intro kk hkk
    rw [hst']
    show lookupA (aErase st.guilds guild.id) kk = lookupA st.guilds kk
    rw [lookupA_erase, hid, if_neg hkk]
  · intro eid e
    rw [hst']
    exact foldl_erase_owned_iff Emoji.id Emoji.guild_id guild.emojis
      st.emojis gid hEk hEown hEcov eid e
  · intro sid s
    rw [hst']
    exact foldl_erase_owned_iff Sticker.id Sticker.guild_id guild.stickers
      st.stickers gid hSk hSown hScov sid s
  · intro d hd hcap
    rw [hst']
    show st.messages.map _ = _
    rw [hd, hcap]
    rfl

/-- C5 witness: the theorem applied to the example state: deleting guild 7
removes it, keeps guild 8, keeps guild 8's emoji 102, and filters guild 7's
messages (ids 1 and 4) out of the ring buffer keeping capacity 1000. -/
theorem guild_delete_cascade_witness :
    lookupA (exState.parse_guild_delete 7 false).guilds 7 = none ∧
    lookupA (exState.parse_guild_delete 7 false).guilds 8 =
      lookupA exState.guilds 8 ∧
    lookupA (exState.parse_guild_delete 7 false).emojis 102 =
      some { id := 102, guild_id := 8 } ∧
    (exState.parse_guild_delete 7 false).messages =
      some { cap := some 1000,
             items := [{ id := 2, guild_id := some 8 },
                       { id := 3, guild_id := none }] } := by
  have h := guild_delete_cascade exState 7 exGuildA rfl rfl
    (by decide) (by decide) (by decide) (by decide) (by decide) (by decide)
  refine ⟨h.1, h.2.1 8 (by decide), ?_, ?_⟩
  · exact (h.2.2.1 102 { id := 102, guild_id := 8 }).mpr ⟨rfl, by decide⟩
  · have hm := h.2.2.2.2
      { cap := some 1000,
        items := [{ id := 1, guild_id := some 7 },
                  { id := 2, guild_id := some 8 },
                  { id := 3, guild_id := none },
                  { id := 4, guild_id := some 7 }] } rfl rfl
    rw [hm]
    rfl


/-- C2 (confirmed): a chunk page is attributed to exactly the registered
requests whose guild id and token both match it: a matching request's
buffer is extended by the page's members (and on the final page the
request's pending waiters are resolved with the full buffer and the
request is deregistered); a non-matching request is left exactly as it
was; a page whose token matches no request — in particular any page with
no token — changes no request, no guild and no future; and a future whose
request the page does not complete keeps its exact state, so a page with
token T1 never resolves or buffers into a request opened with token T2. -/
theorem process_chunk_requests_matching (st : ConnectionState) (gid : Nat)
    (nonce : Option String) (ms : List Member) (c : Bool)
    (hnd : (aKeys st.chunk_requests).Nodup) :
    (∀ k r, lookupA st.chunk_requests k = some r →
      (reqMatches r gid nonce = true →
        lookupA (st.process_chunk_requests gid nonce ms c).chunk_requests
            k =
          if c then none else some { r with buffer := r.buffer ++ ms }) ∧
      (reqMatches r gid nonce = false →
        lookupA (st.process_chunk_requests gid nonce ms c).chunk_requests
            k = some r)) ∧
    ((∀ e ∈ st.chunk_requests, reqMatches e.2 gid nonce = false) →
      (st.process_chunk_requests gid nonce ms c).chunk_requests =
          st.chunk_requests ∧
        (st.process_chunk_requests gid nonce ms c).guilds = st.guilds ∧
        (st.process_chunk_requests gid nonce ms c).futures = st.futures) ∧
    (nonce = none → ∀ e ∈ st.chunk_requests,
      reqMatches e.2 gid nonce = false) ∧
    (∀ k r f, lookupA st.chunk_requests k = some r →
      reqMatches r gid nonce = true → c = true → f ∈ r.waiters →
      lookupA st.futures f = some none →
      (∀ e ∈ st.chunk_requests, e.1 ≠ k → f ∉ e.2.waiters) →
      lookupA (st.process_chunk_requests gid nonce ms c).futures f =
        some (some (r.buffer ++ ms))) ∧
    (∀ f, (∀ e ∈ st.chunk_requests,
        reqMatches e.2 gid nonce = true → c = true → f ∉ e.2.waiters) →
      lookupA (st.process_chunk_requests gid nonce ms c).futures f =
        lookupA st.futures f) := by
  refine ⟨?_, ?_, ?_, ?_, ?_⟩
  · intro k r hk
    constructor
    · intro hm
      rw [process_chunk_requests_eq]
      show lookupA (pcrEntries gid nonce ms c st.chunk_requests) k = _
      rw [lookupA_pcrEntries gid nonce ms c st.chunk_requests hnd, hk]
      simp [hm]
    · intro hm
      rw [process_chunk_requests_eq]
      show lookupA (pcrEntries gid nonce ms c st.chunk_requests) k = _
      rw [lookupA_pcrEntries gid nonce ms c st.chunk_requests hnd, hk]
      simp [hm]
  · intro hall
    rw [process_chunk_requests_eq]
    exact ⟨pcrEntries_id gid nonce ms c _ hall,
      pcrGuilds_id gid nonce ms _ _ hall,
      pcrFutures_id gid nonce ms c _ _ hall⟩
  · intro hn e _
    subst hn
    simp [reqMatches]
  · intro k r f hk hm hc hfw hf hothers
    subst hc
    rw [process_chunk_requests_eq]
    exact pcrFutures_resolve gid nonce ms k r f hm hfw st.chunk_requests
      st.futures (lookupA_mem hk) hnd hf hothers
  · intro f hw
    rw [process_chunk_requests_eq]
    exact pcrFutures_untouched gid nonce ms c st.chunk_requests st.futures
      f hw


/-- C2 witness: the theorem applied to two same-guild requests under
tokens "t1" and "t2" and a final page for token "t1": the "t1" request is
deregistered and its waiter resolved with the page, while the "t2" request
and its pending waiter are byte-for-byte untouched; a page with no token
changes nothing. -/
theorem process_chunk_requests_matching_witness :
    lookupA (qState.process_chunk_requests 7 (some "t1")
        [{ id := 99, joined_at := none, payload := 1 }]
        true).chunk_requests (.tok "t1") = none ∧
    lookupA (qState.process_chunk_requests 7 (some "t1")
        [{ id := 99, joined_at := none, payload := 1 }]
        true).chunk_requests (.tok "t2") =
      some { guild_id := 7, cache := false, nonce := "t2",
             buffer := [], waiters := [1] } ∧
    lookupA (qState.process_chunk_requests 7 (some "t1")
        [{ id := 99, joined_at := none, payload := 1 }]
        true).futures 0 =
      some (some [{ id := 99, joined_at := none, payload := 1 }]) ∧
    lookupA (qState.process_chunk_requests 7 (some "t1")
        [{ id := 99, joined_at := none, payload := 1 }]
        true).futures 1 = some none ∧
    (qState.process_chunk_requests 7 none
        [{ id := 99, joined_at := none, payload := 1 }]
        true).chunk_requests = qState.chunk_requests := by
  have h := process_chunk_requests_matching qState 7 (some "t1")
    [{ id := 99, joined_at := none, payload := 1 }] true (by decide)
  have hn := process_chunk_requests_matching qState 7 none
    [{ id := 99, joined_at := none, payload := 1 }] true (by decide)
  refine ⟨?_, ?_, ?_, ?_, ?_⟩
  · have := (h.1 (.tok "t1")
      { guild_id := 7, cache := false, nonce := "t1", buffer := [],
        waiters := [0] } (by decide)).1 (by decide)
    simpa using this
  · exact (h.1 (.tok "t2")
      { guild_id := 7, cache := false, nonce := "t2", buffer := [],
        waiters := [1] } (by decide)).2 (by decide)
  · have := h.2.2.2.1 (.tok "t1")
      { guild_id := 7, cache := false, nonce := "t1", buffer := [],
        waiters := [0] } 0 (by decide) (by decide) rfl (by decide)
      (by decide) (by decide)
    simpa using this
  · have h1 := h.2.2.2.2 1 (by decide)
    rw [h1]
    rfl
  · exact (hn.2.1 (hn.2.2.1 rfl)).1


/-- C1 (counterexample): the claim says that after a timed-out
`query_members` call no registration for the request's token remains in
the chunk-request map; on the code the timeout path re-raises after
logging but never deletes `_chunk_requests[nonce]`, so after a wait that
saw no page at all the registration is still there. -/
theorem query_members_timeout_registration_cex :
    (emptyState.query_members_run 1 "n" true []).2 = .error () ∧
    ¬ (lookupA (emptyState.query_members_run 1 "n" true
        []).1.chunk_requests (.tok "n") = none) := by
  constructor
  · rfl
  · intro h
    rw [show lookupA (emptyState.query_members_run 1 "n" true
        []).1.chunk_requests (.tok "n") =
        some { guild_id := 1, cache := true, nonce := "n", buffer := [],
               waiters := [] } from rfl] at h
    cases h

/-- C1 (amended): for an ad-hoc `query_members` with a fresh token, if no
final page for that token arrives during the 30-second wait, the
`TimeoutError` is re-signaled to the caller after a logged warning and the
waiter future is deregistered from the request's waiter list — but the
request registration for the token *remains* in the chunk-request map (it
is only removed when a final page for the token is processed). -/
theorem query_members_timeout_keeps_registration (st : ConnectionState)
    (gid : Nat) (nonce : String) (cache : Bool) (pages : List ChunkPage)
    (hfresh : lookupA st.chunk_requests (.tok nonce) = none)
    (hnd : (aKeys st.chunk_requests).Nodup)
    (hw : ∀ e ∈ st.chunk_requests, ∀ w ∈ e.2.waiters, w < st.next_future)
    (hfk : ∀ p ∈ st.futures, p.1 < st.next_future)
    (hpages : ∀ p ∈ pages,
      ¬ (p.guild_id = gid ∧ p.nonce = some nonce ∧ p.complete = true)) :
    (st.query_members_run gid nonce cache pages).2 = .error () ∧
    (∃ r, lookupA
        (st.query_members_run gid nonce cache pages).1.chunk_requests
        (.tok nonce) = some r ∧
      r.guild_id = gid ∧ r.nonce = nonce ∧ r.cache = cache ∧
      r.waiters = []) ∧
    (st.query_members_run gid nonce cache pages).1.warnings =
      st.warnings + 1 := by
  have hknot : ChunkKey.tok nonce ∉ aKeys st.chunk_requests := by
    intro hc
    rcases exists_lookupA_of_mem_keys hc with ⟨b, hb⟩
    rw [hfresh] at hb
    cases hb
  have hnotmem :
      ¬ ((st.chunk_requests.any
        (fun p => p.1 = ChunkKey.tok nonce)) = true) := by
    intro hany
    exact hknot ((any_key_iff_mem _ _).mp hany)
  have hins : aInsert st.chunk_requests (ChunkKey.tok nonce)
      { guild_id := gid, cache := cache, nonce := nonce, buffer := [],
        waiters := [] } =
      st.chunk_requests ++ [(ChunkKey.tok nonce,
        { guild_id := gid, cache := cache, nonce := nonce, buffer := [],
          waiters := [] })] := by
    unfold aInsert
    rw [if_neg hnotmem]
  have hfnot : st.next_future ∉ aKeys st.futures := by
    intro hc
    unfold aKeys at hc
    rcases List.mem_map.mp hc with ⟨p, hp, hpk⟩
    exact absurd (hpk ▸ hfk p hp) (Nat.lt_irrefl _)
  -- invariant inputs at the registered state
  have f1 : ∃ b, lookupA (qmStart st gid nonce cache).chunk_requests
      (.tok nonce) =
      some { guild_id := gid, cache := cache, nonce := nonce, buffer := b,
             waiters := [st.next_future] } := by
    refine ⟨[], ?_⟩
    simp only [qmStart]
    rw [lookupA_mapReqAt, if_pos rfl, lookupA_aInsert, if_pos rfl]
    rfl
  have f2 : lookupA (qmStart st gid nonce cache).futures st.next_future =
      some none := by
    simp only [qmStart]
    rw [lookupA_append, lookupA_eq_none_of_not_mem _ _ hfnot]
    simp [lookupA]
  have f3 : ∀ e ∈ (qmStart st gid nonce cache).chunk_requests,
      e.1 ≠ .tok nonce → st.next_future ∉ e.2.waiters := by
    intro e he hek
    simp only [qmStart] at he
    rcases mem_mapReqAt _ _ _ _ he with ⟨p, hp, hk, hv⟩
    have hpk : ¬ p.1 = ChunkKey.tok nonce := fun hc => hek (hk ▸ hc)
    rw [if_neg hpk] at hv
    rw [hins] at hp
    rcases List.mem_append.mp hp with hp | hp
    · intro hc
      rw [hv] at hc
      exact absurd (hw p hp _ hc) (Nat.lt_irrefl _)
    · simp only [List.mem_singleton] at hp
      exact absurd (by rw [hp]) hpk
  have f4 : (aKeys (qmStart st gid nonce cache).chunk_requests).Nodup := by
    simp only [qmStart]
    rw [aKeys_mapReqAt, hins]
    unfold aKeys
    rw [List.map_append]
    simp only [List.map_cons, List.map_nil]
    rw [List.nodup_append]
    exact ⟨hnd, List.nodup_singleton _,
      by simpa [List.disjoint_singleton, aKeys] using hknot⟩
  have hinv := qm_fold_invariant gid nonce cache st.next_future pages
    (qmStart st gid nonce cache) hpages f1 f2 f3 f4
  rcases hinv with ⟨⟨b3, hreq3⟩, hfut3, _, _, hwarn3⟩
  rw [query_members_run_eq, hfut3]
  refine ⟨rfl, ?_, ?_⟩
  · refine ⟨{ guild_id := gid, cache := cache, nonce := nonce,
              buffer := b3, waiters := [] }, ?_, rfl, rfl, rfl, rfl⟩
    have hlk : lookupA (mapReqAt (pages.foldl (fun s p =>
        s.process_chunk_requests p.guild_id p.nonce p.members p.complete)
        (qmStart st gid nonce cache)).chunk_requests (.tok nonce)
        (fun r => { r with waiters := r.waiters.erase st.next_future }))
        (.tok nonce) =
        some { guild_id := gid, cache := cache, nonce := nonce,
               buffer := b3, waiters := [] } := by
      rw [lookupA_mapReqAt, if_pos rfl, hreq3]
      simp
    exact hlk
  · have hwq : (qmStart st gid nonce cache).warnings = st.warnings := rfl
    exact congrArg (fun x => x + 1) (hwarn3.trans hwq)

/-- C1 witness: the amended theorem applied to the empty state with token
"n" and an empty page schedule. -/
theorem query_members_timeout_keeps_registration_witness :
    (emptyState.query_members_run 1 "n" true []).2 = .error () ∧
    (∃ r, lookupA (emptyState.query_members_run 1 "n" true
        []).1.chunk_requests (.tok "n") = some r ∧
      r.guild_id = 1 ∧ r.nonce = "n" ∧ r.cache = true ∧ r.waiters = []) ∧
    (emptyState.query_members_run 1 "n" true []).1.warnings =
      emptyState.warnings + 1 :=
  query_members_timeout_keeps_registration emptyState 1 "n" true []
    rfl (by decide) (by intro e he; cases he) (by intro p hp; cases hp)
    (by intro p hp; cases hp)

end DiscordState
